import Mathlib

/-!
# Verification of the structured-value recovery pipeline

A shallow embedding of the recovery pipeline of `perplexity_shell.py`
(envelope unwrapping, object location, literal-aware sanitizing, the decode
strategy chain, newline restoration, and citation annotation) together with
the response handling of `perplexity_query.py`.  Text is modelled as
`List Char`; `json.loads` is modelled by a fuel-bounded recursive-descent
parser following CPython's `json` module (floats, `NaN`/`Infinity`,
lone surrogates and named escapes are outside the modelled fragment; none
of the verified properties depend on them).  Every definition is
computable, so concrete runs of the pipeline reduce by `decide`/`rfl`.
-/

/-! ## Characters and basic scanning helpers -/

/-- JSON whitespace, CPython `json.decoder.WHITESPACE_STR`. -/
def isWsCh (c : Char) : Bool := c = ' ' || c = '\t' || c = '\n' || c = '\r'

/-- Skip JSON whitespace. -/
def skipWs (s : List Char) : List Char := s.dropWhile isWsCh

/-- ASCII decimal digit. -/
def isDigitCh (c : Char) : Bool := 48 ≤ c.toNat && c.toNat ≤ 57

/-- Value of a decimal digit string (most significant first). -/
def digitsVal (ds : List Char) : Nat := ds.foldl (fun a c => a * 10 + (c.toNat - 48)) 0

/-- Value of one hexadecimal digit (either case), as used by `\uXXXX` escapes. -/
def hexDigitVal (c : Char) : Option Nat :=
  if 48 ≤ c.toNat && c.toNat ≤ 57 then some (c.toNat - 48)
  else if 97 ≤ c.toNat && c.toNat ≤ 102 then some (c.toNat - 87)
  else if 65 ≤ c.toNat && c.toNat ≤ 70 then some (c.toNat - 55)
  else none

/-- Value of one octal digit, as used by `unicode_escape` octal escapes. -/
def octDigitVal (c : Char) : Option Nat :=
  if 48 ≤ c.toNat && c.toNat ≤ 55 then some (c.toNat - 48) else none

/-- Python's substring test `pat in s`. -/
def containsSub (pat : List Char) : List Char → Bool
  | [] => pat.isEmpty
  | c :: rest => pat.isPrefixOf (c :: rest) || containsSub pat rest

/-- Decimal digit characters of `n`, most significant first, prepended to
`acc`; the first argument is recursion fuel (`n` itself is always enough,
since the argument at least halves every step). -/
def natCharsGo : Nat → Nat → List Char → List Char
  | 0, _, acc => acc
  | fuel + 1, n, acc =>
    if n = 0 then acc else natCharsGo fuel (n / 10) (Nat.digitChar (n % 10) :: acc)

/-- Decimal digit characters of `n`, e.g. `natChars 104 = ['1','0','4']`. -/
def natChars (n : Nat) : List Char := if n = 0 then ['0'] else natCharsGo n n []

/-- Decimal characters of an integer: optional minus sign, then digits. -/
def encInt (n : Int) : List Char :=
  if n < 0 then '-' :: natChars n.natAbs else natChars n.natAbs

/-! ## The JSON value tree

`json.loads` output: strings, integers, booleans, `null`, arrays and
objects.  Arrays and objects are carried by the mutually inductive
`JItems`/`JFields` spines so that every function on values is structurally
recursive (and hence reduces inside the kernel). -/

mutual
inductive JVal where
  | str : List Char → JVal
  | num : Int → JVal
  | bool : Bool → JVal
  | null : JVal
  | arr : JItems → JVal
  | obj : JFields → JVal
deriving DecidableEq
inductive JItems where
  | nil : JItems
  | cons : JVal → JItems → JItems
deriving DecidableEq
inductive JFields where
  | nil : JFields
  | cons : List Char → JVal → JFields → JFields
deriving DecidableEq
end

/-- First value bound to key `k` (the parser output has unique keys, so this
is Python's `dict` lookup). -/
def lookupKey : JFields → List Char → Option JVal
  | .nil, _ => none
  | .cons k0 v rest, k => if k0 = k then some v else lookupKey rest k

/-- Whether an association list already binds key `k`. -/
def hasKey : JFields → List Char → Bool
  | .nil, _ => false
  | .cons k0 _ rest, k => k0 = k || hasKey rest k

/-- All keys pairwise distinct. -/
def keysDistinct : JFields → Bool
  | .nil => true
  | .cons k _ rest => !hasKey rest k && keysDistinct rest

/-- `d[k] = v` on an association list rendered as a Python dict: a repeated
key overwrites the earlier value in place, a new key is appended. -/
def insertKey : JFields → List Char → JVal → JFields
  | .nil, k, v => .cons k v .nil
  | .cons k0 v0 rest, k, v =>
    if k0 = k then .cons k0 v rest else .cons k0 v0 (insertKey rest k v)

/-- Fold of `insertKey` over a pair list, starting from `acc`. -/
def mkDictGo : JFields → JFields → JFields
  | acc, .nil => acc
  | acc, .cons k v rest => mkDictGo (insertKey acc k v) rest

/-- `dict(pairs)`: the parsed member pairs as a Python dict (later duplicate
keys win, first occurrence fixes the position). -/
def mkDict (fs : JFields) : JFields := mkDictGo .nil fs

/-! ## `json.loads`

A recursive-descent parser with the exact decision structure of CPython's
`json.scanner.py_make_scanner` / `json.decoder` in `strict` mode (the mode
`json.loads` uses).  `fuel` only serves totality: every recursive call
consumes at least one input character first, so `length + 1` fuel (what
`json_loads` passes) can never run out before the input does. -/

/-- The `BACKSLASH` table of `json.decoder`: the eight short escapes. -/
def escMap (e : Char) : Option Char :=
  if e = '\x22' then some '\x22'
  else if e = '\\' then some '\\'
  else if e = '/' then some '/'
  else if e = 'b' then some '\x08'
  else if e = 'f' then some '\x0c'
  else if e = 'n' then some '\n'
  else if e = 'r' then some '\x0d'
  else if e = 't' then some '\t'
  else none

/-- A `\uXXXX` escape body: four hex digits.  Surrogate halves
(`0xd800`–`0xdfff`) are outside the modelled fragment and rejected. -/
def parseUEsc : List Char → Option (Char × List Char)
  | h1 :: h2 :: h3 :: h4 :: r3 =>
    match hexDigitVal h1, hexDigitVal h2, hexDigitVal h3, hexDigitVal h4 with
    | some a, some b, some c2, some d =>
      let n := ((a * 16 + b) * 16 + c2) * 16 + d
      if 0xd800 ≤ n && n ≤ 0xdfff then none
      else some (Char.ofNat n, r3)
    | _, _, _, _ => none
  | _ => none

/-- One escape sequence after the backslash: `\uXXXX` or a short escape;
anything else is an error ("Invalid \escape"). -/
def parseEscStep (rest : List Char) : Option (Char × List Char) :=
  match rest with
  | [] => none
  | e :: r2 =>
    if e = 'u' then parseUEsc r2
    else (escMap e).map (fun ch => (ch, r2))

/-- Body of a string literal after the opening quote (fuelled loop), per
`json.decoder.py_scanstring` with `strict=True`: an unescaped `"` ends the
literal, raw control characters (below `0x20`) are rejected, escapes are
decoded by `parseEscStep`. -/
def parseStrGo : Nat → List Char → Option (List Char × List Char)
  | 0, _ => none
  | _ + 1, [] => none
  | fuel + 1, c :: rest =>
    if c = '\x22' then some ([], rest)
    else if c = '\\' then
      match parseEscStep rest with
      | none => none
      | some (ch, r2) => (parseStrGo fuel r2).map (fun p => (ch :: p.1, p.2))
    else if c.toNat < 0x20 then none
    else (parseStrGo fuel rest).map (fun p => (c :: p.1, p.2))

/-- `py_scanstring` after the opening quote; the fuel only serves totality
(every step consumes at least one character first). -/
def parseStrBody (s : List Char) : Option (List Char × List Char) := parseStrGo s.length s

/-- Integer part of CPython's `NUMBER_RE`: `0` alone, or a nonzero digit
followed by a greedy digit run (so no leading zeros).  Fractional and
exponent parts (floats) are outside the modelled fragment. -/
def parseNum : List Char → Option (Nat × List Char)
  | [] => none
  | c :: rest =>
    if c = '0' then some (0, rest)
    else if isDigitCh c then
      some (digitsVal (c :: rest.takeWhile isDigitCh), rest.dropWhile isDigitCh)
    else none

/-- The tail of the literal `null` after its leading `n`. -/
def litNull : List Char → Option (List Char)
  | 'u' :: 'l' :: 'l' :: r => some r
  | _ => none

/-- The tail of the literal `true` after its leading `t`. -/
def litTrue : List Char → Option (List Char)
  | 'r' :: 'u' :: 'e' :: r => some r
  | _ => none

/-- The tail of the literal `false` after its leading `f`. -/
def litFalse : List Char → Option (List Char)
  | 'a' :: 'l' :: 's' :: 'e' :: r => some r
  | _ => none

mutual
/-- One JSON value at the current position (callers have skipped
whitespace), following `py_make_scanner._scan_once`'s dispatch order. -/
def parseVal : Nat → List Char → Option (JVal × List Char)
  | 0, _ => none
  | fuel + 1, s =>
    match s with
    | [] => none
    | c :: rest =>
      if c = '\x22' then (parseStrBody rest).map (fun p => (JVal.str p.1, p.2))
      else if c = '\x7b' then
        match skipWs rest with
        | [] => none
        | d :: rest1 =>
          if d = '\x7d' then some (JVal.obj .nil, rest1)
          else
            match parseMembers fuel (d :: rest1) with
            | none => none
            | some (fs, r) => some (JVal.obj (mkDict fs), r)
      else if c = '[' then
        match skipWs rest with
        | [] => none
        | d :: rest1 =>
          if d = ']' then some (JVal.arr .nil, rest1)
          else
            match parseItems fuel (d :: rest1) with
            | none => none
            | some (xs, r) => some (JVal.arr xs, r)
      else if c = 'n' then
        match litNull rest with
        | some r => some (JVal.null, r)
        | none => none
      else if c = 't' then
        match litTrue rest with
        | some r => some (JVal.bool true, r)
        | none => none
      else if c = 'f' then
        match litFalse rest with
        | some r => some (JVal.bool false, r)
        | none => none
      else if c = '-' then (parseNum rest).map (fun p => (JVal.num (-(p.1 : Int)), p.2))
      else (parseNum (c :: rest)).map (fun p => (JVal.num (p.1 : Int), p.2))
/-- One-or-more comma-separated `"key": value` members, as the raw pair
list (`JSONObject`'s `pairs`); the empty object and the final `dict(pairs)`
conversion live in `parseVal`.  A trailing comma is an error. -/
def parseMembers : Nat → List Char → Option (JFields × List Char)
  | 0, _ => none
  | fuel + 1, s =>
    match s with
    | [] => none
    | c :: rest =>
      if c = '\x22' then
        match parseStrBody rest with
        | none => none
        | some (k, r1) =>
          match skipWs r1 with
          | [] => none
          | d :: r2 =>
            if d = ':' then
              match parseVal fuel (skipWs r2) with
              | none => none
              | some (v, r3) =>
                match skipWs r3 with
                | [] => none
                | e :: r4 =>
                  if e = ',' then
                    match parseMembers fuel (skipWs r4) with
                    | none => none
                    | some (fs, r5) => some (JFields.cons k v fs, r5)
                  else if e = '\x7d' then some (JFields.cons k v .nil, r4)
                  else none
            else none
      else none
/-- One-or-more comma-separated array items (`JSONArray`'s loop); the empty
array lives in `parseVal`.  A trailing comma is an error. -/
def parseItems : Nat → List Char → Option (JItems × List Char)
  | 0, _ => none
  | fuel + 1, s =>
    match parseVal fuel s with
    | none => none
    | some (v, r1) =>
      match skipWs r1 with
      | [] => none
      | d :: r2 =>
        if d = ',' then
          match parseItems fuel (skipWs r2) with
          | none => none
          | some (xs, r3) => some (JItems.cons v xs, r3)
        else if d = ']' then some (JItems.cons v .nil, r2)
        else none
end

/-- `json.loads`: skip leading whitespace, parse one document, then require
that only whitespace remains (`raw_decode` plus the "Extra data" check). -/
def json_loads (s : List Char) : Option JVal :=
  match parseVal (s.length + 1) (skipWs s) with
  | none => none
  | some (v, rest) => if skipWs rest = [] then some v else none

/-! ## The literal-aware sanitizer

`parse_perplexity_response`, `perplexity_shell.py` lines 174–185.  Phase 1
is `re.sub(r'("(?:\\.|[^"\\])*")', replace_newlines, json_str)`: a
left-to-right scan that, at each `"`, tries to match one string literal
(escape pair `\\.` — whose `.` does not match a newline — or a plain
non-quote non-backslash character, repeated, then a closing `"`).  The
alternatives have disjoint first characters and no backtracking
re-entry point can start with `"`, so the regex match is equivalent to the
deterministic scan below; on failure the engine moves one character
forward.  Phase 2 replaces the remaining control characters. -/

/-- Match one string-literal tail (after the opening `"`): returns the
literal's inner text and the remaining input after the closing quote, or
`none` when the regex cannot complete a literal from this quote (end of
input, trailing backslash, or a backslash directly before a newline, which
neither `\\.` nor `[^"\\]` accepts). -/
def scanLiteral : List Char → Option (List Char × List Char)
  | [] => none
  | c :: rest =>
    if c = '\x22' then some ([], rest)
    else if c = '\\' then
      match rest with
      | [] => none
      | e :: r2 =>
        if e = '\n' then none
        else (scanLiteral r2).map (fun p => ('\\' :: e :: p.1, p.2))
    else (scanLiteral rest).map (fun p => (c :: p.1, p.2))

/-- The sanitized stand-in for a protected newline, `"{{NEWLINE}}"`. -/
def placeholder : List Char := "\x7b\x7bNEWLINE\x7d\x7d".data

/-- `re.sub(r"(?<!\\)\n", "{{NEWLINE}}", s)` over one matched literal
(lines 177–180): each newline is replaced by the placeholder unless the
character directly before it is a backslash (the negative lookbehind). -/
def replaceNLGo : Option Char → List Char → List Char
  | _, [] => []
  | prev, c :: rest =>
    if c = '\n' ∧ prev ≠ some '\\' then placeholder ++ replaceNLGo (some c) rest
    else c :: replaceNLGo (some c) rest

/-- The `replace_newlines` callback applied to one matched string literal
(quotes included). -/
def replace_newlines (g : List Char) : List Char := replaceNLGo none g

/-- Definitional unfolding of `scanLiteral` at a cons cell. -/
theorem scanLiteral_cons (c : Char) (rest : List Char) :
    scanLiteral (c :: rest) =
      if c = '\x22' then some ([], rest)
      else if c = '\\' then
        match rest with
        | [] => none
        | e :: r2 =>
          if e = '\n' then none
          else (scanLiteral r2).map (fun p => ('\\' :: e :: p.1, p.2))
      else (scanLiteral rest).map (fun p => (c :: p.1, p.2)) := by
  conv_lhs => rw [scanLiteral.eq_def]

theorem scanLiteral_shrink : ∀ s content after,
    scanLiteral s = some (content, after) → after.length < s.length
  | [], _, _, h => by simp [scanLiteral] at h
  | c :: rest, content, after, h => by
    rw [scanLiteral_cons] at h
    by_cases hq : c = '\x22'
    · rw [if_pos hq] at h
      cases h
      simp
    · rw [if_neg hq] at h
      by_cases hb : c = '\\'
      · rw [if_pos hb] at h
        cases rest with
        | nil => simp at h
        | cons e r2 =>
          by_cases he : e = '\n'
          · simp [he] at h
          · simp only [if_neg he] at h
            obtain ⟨⟨content2, after2⟩, h2, heq⟩ := Option.map_eq_some'.mp h
            cases heq
            have := scanLiteral_shrink r2 content2 after2 h2
            simp only [List.length_cons]
            omega
      · rw [if_neg hb] at h
        obtain ⟨⟨content2, after2⟩, h2, heq⟩ := Option.map_eq_some'.mp h
        cases heq
        have := scanLiteral_shrink rest content2 after2 h2
        simp only [List.length_cons]
        omega

/-- Phase-1 scan with explicit fuel (for totality); `protect` instantiates
the fuel with the input length, which the scan can never exhaust first. -/
def protectGo : Nat → List Char → List Char
  | 0, s => s
  | _ + 1, [] => []
  | fuel + 1, c :: rest =>
    if c = '\x22' then
      match scanLiteral rest with
      | some (content, after) =>
        replace_newlines ('\x22' :: content ++ ['\x22']) ++ protectGo fuel after
      | none => c :: protectGo fuel rest
    else c :: protectGo fuel rest

/-- Phase 1 of the sanitizer (line 182): protect string-internal newlines
by running `replace_newlines` over every matched string literal. -/
def protect (s : List Char) : List Char := protectGo s.length s

/-- The control characters stripped by phase 2: `[\x00-\x09\x0b-\x1F]`
(note `0x0a`, the newline, is deliberately outside both ranges). -/
def isStrippedCtrl (c : Char) : Bool := c.toNat ≤ 9 || (11 ≤ c.toNat && c.toNat ≤ 31)

/-- Phase 2 of the sanitizer (line 185):
`re.sub(r"[\x00-\x09\x0b-\x1F]", " ", json_str)`. -/
def stripControl (s : List Char) : List Char :=
  s.map (fun c => if isStrippedCtrl c then ' ' else c)

/-- The whole sanitize phase: newline protection, then control stripping. -/
def sanitize (s : List Char) : List Char := stripControl (protect s)

/-! ## The fallback unescape and the decode strategy chain -/

/-- `s.encode().decode("unicode_escape")` (line 191) on ASCII text,
following CPython's `unicode_escape` codec: short escapes, a backslash
before a newline is a line continuation, up to three octal digits, `\xhh`,
`\uXXXX` and `\UXXXXXXXX` (hex digits required on pain of a decode error),
an unknown escape is kept verbatim, a trailing backslash is an error.
Named `\N{...}` escapes and surrogate results are outside the modelled
fragment and rejected. -/
def unicodeUnescapeGo : Nat → List Char → Option (List Char)
  | _, [] => some []
  | 0, _ :: _ => none
  | fuel + 1, c :: rest =>
    if c = '\\' then
      match rest with
      | [] => none
      | e :: r2 =>
        if e = '\n' then unicodeUnescapeGo fuel r2
        else if e = '\\' then (unicodeUnescapeGo fuel r2).map (fun t => '\\' :: t)
        else if e = '\x27' then (unicodeUnescapeGo fuel r2).map (fun t => '\x27' :: t)
        else if e = '\x22' then (unicodeUnescapeGo fuel r2).map (fun t => '\x22' :: t)
        else if e = 'a' then (unicodeUnescapeGo fuel r2).map (fun t => '\x07' :: t)
        else if e = 'b' then (unicodeUnescapeGo fuel r2).map (fun t => '\x08' :: t)
        else if e = 'f' then (unicodeUnescapeGo fuel r2).map (fun t => '\x0c' :: t)
        else if e = 'n' then (unicodeUnescapeGo fuel r2).map (fun t => '\n' :: t)
        else if e = 'r' then (unicodeUnescapeGo fuel r2).map (fun t => '\x0d' :: t)
        else if e = 't' then (unicodeUnescapeGo fuel r2).map (fun t => '\t' :: t)
        else if e = 'v' then (unicodeUnescapeGo fuel r2).map (fun t => '\x0b' :: t)
        else
          match octDigitVal e with
          | some o1 =>
            match r2 with
            | d2 :: r3 =>
              match octDigitVal d2 with
              | some o2 =>
                match r3 with
                | d3 :: r4 =>
                  match octDigitVal d3 with
                  | some o3 =>
                    (unicodeUnescapeGo fuel r4).map
                      (fun t => Char.ofNat ((o1 * 8 + o2) * 8 + o3) :: t)
                  | none =>
                    (unicodeUnescapeGo fuel r3).map (fun t => Char.ofNat (o1 * 8 + o2) :: t)
                | [] => (unicodeUnescapeGo fuel r3).map (fun t => Char.ofNat (o1 * 8 + o2) :: t)
              | none => (unicodeUnescapeGo fuel r2).map (fun t => Char.ofNat o1 :: t)
            | [] => (unicodeUnescapeGo fuel r2).map (fun t => Char.ofNat o1 :: t)
          | none =>
            if e = 'x' then
              match r2 with
              | h1 :: h2 :: r3 =>
                match hexDigitVal h1, hexDigitVal h2 with
                | some a, some b =>
                  (unicodeUnescapeGo fuel r3).map (fun t => Char.ofNat (a * 16 + b) :: t)
                | _, _ => none
              | _ => none
            else if e = 'u' then
              match r2 with
              | h1 :: h2 :: h3 :: h4 :: r3 =>
                match hexDigitVal h1, hexDigitVal h2, hexDigitVal h3, hexDigitVal h4 with
                | some a, some b, some c2, some d =>
                  let n := ((a * 16 + b) * 16 + c2) * 16 + d
                  if 0xd800 ≤ n && n ≤ 0xdfff then none
                  else (unicodeUnescapeGo fuel r3).map (fun t => Char.ofNat n :: t)
                | _, _, _, _ => none
              | _ => none
            else if e = 'U' then
              match r2 with
              | h1 :: h2 :: h3 :: h4 :: h5 :: h6 :: h7 :: h8 :: r3 =>
                match hexDigitVal h1, hexDigitVal h2, hexDigitVal h3, hexDigitVal h4,
                      hexDigitVal h5, hexDigitVal h6, hexDigitVal h7, hexDigitVal h8 with
                | some a, some b, some c2, some d, some a2, some b2, some c3, some d2 =>
                  let n := ((((((a * 16 + b) * 16 + c2) * 16 + d) * 16 + a2) * 16 + b2) * 16
                    + c3) * 16 + d2
                  if n > 0x10ffff || (0xd800 ≤ n && n ≤ 0xdfff) then none
                  else (unicodeUnescapeGo fuel r3).map (fun t => Char.ofNat n :: t)
                | _, _, _, _, _, _, _, _ => none
              | _ => none
            else if e = 'N' then none
            else (unicodeUnescapeGo fuel r2).map (fun t => '\\' :: e :: t)
    else (unicodeUnescapeGo fuel rest).map (fun t => c :: t)

/-- The `unicode_escape` transform; the fuel only serves totality (every
step consumes at least one character first, so the input length is always
enough). -/
def unicodeUnescape (s : List Char) : Option (List Char) := unicodeUnescapeGo s.length s

/-- The decode strategy chain (lines 187–192): try `json.loads` on the
sanitized text; only on `JSONDecodeError` apply the `unicode_escape`
transform once and retry once; any remaining failure propagates. -/
def decodeChain (s : List Char) : Option JVal :=
  match json_loads s with
  | some v => some v
  | none =>
    match unicodeUnescape s with
    | none => none
    | some t => json_loads t

/-! ## The whitespace restorer -/

/-- Fuelled leftmost non-overlapping literal replacement; `replaceAll`
instantiates the fuel with the input length, which the scan can never
exhaust first. -/
def replaceAllGo (pat rep : List Char) : Nat → List Char → List Char
  | 0, s => s
  | _ + 1, [] => []
  | fuel + 1, c :: rest =>
    if pat ≠ [] ∧ pat.isPrefixOf (c :: rest) then
      rep ++ replaceAllGo pat rep fuel ((c :: rest).drop pat.length)
    else c :: replaceAllGo pat rep fuel rest

/-- Leftmost non-overlapping replacement of every occurrence of `pat` by
`rep` — Python's `str.replace` and, for a regex-free pattern, `re.sub`. -/
def replaceAll (pat rep s : List Char) : List Char := replaceAllGo pat rep s.length s

/-- `obj.replace("{{NEWLINE}}", "\n")` on one string (line 201). -/
def restoreStr (s : List Char) : List Char := replaceAll placeholder ['\n'] s

mutual
/-- `restore_newlines` (lines 195–202): rebuild dicts and lists with every
child restored, turn each placeholder occurrence in a string back into a
newline, and pass every other value through unchanged.  Dict keys are not
values of the comprehension, so they are left untouched. -/
def restore_newlines : JVal → JVal
  | .str s => .str (restoreStr s)
  | .num n => .num n
  | .bool b => .bool b
  | .null => .null
  | .arr xs => .arr (restoreItems xs)
  | .obj kvs => .obj (restoreFields kvs)
def restoreItems : JItems → JItems
  | .nil => .nil
  | .cons x xs => .cons (restore_newlines x) (restoreItems xs)
def restoreFields : JFields → JFields
  | .nil => .nil
  | .cons k v kvs => .cons k (restore_newlines v) (restoreFields kvs)
end

/-! ## The object locator -/

/-- `re.search(r"({[^}]*}(?:[^}]*})*)", text, re.DOTALL)` (line 168).
The pattern matches exactly the strings that start with `{` and end with
`}`; the search is leftmost and the trailing star greedy, so the match (if
any) runs from the first `{` of the text to the last `}` after it.  The
scan below skips to the first `{` and cuts at the last `}` of what
remains, returning `none` — the `ValueError("No JSON object found")` of
lines 169–170 — when no `{` has any `}` after it. -/
def locate : List Char → Option (List Char)
  | [] => none
  | c :: rest =>
    if c = '\x7b' then
      match (c :: rest).reverse.dropWhile (fun d => !(d = '\x7d')) with
      | [] => none
      | d :: r2 => some (d :: r2).reverse
    else locate rest

/-! ## The envelope unwrapper and the pipeline -/

/-- The pipeline's error outcomes: the exception classes that
`parse_perplexity_response` can let escape. -/
inductive PErr where
  | malformedEnvelope
  | noObjectFound
  | decodeFailed
deriving DecidableEq

/-- The envelope marker `'"content":'` of line 158. -/
def contentMarker : List Char := "\x22content\x22:".data

def choicesKey : List Char := "choices".data

def messageKey : List Char := "message".data

def contentKey : List Char := "content".data

/-- `outer_json["choices"][0]["message"]["content"]` (line 161), required
to land on a string (a non-string here would make the later `re.search`
raise instead, which is the same observable failure of the stage). -/
def extractContent (v : JVal) : Option (List Char) :=
  match v with
  | .obj kvs =>
    match lookupKey kvs choicesKey with
    | some (.arr (.cons first _)) =>
      match first with
      | .obj kvs2 =>
        match lookupKey kvs2 messageKey with
        | some (.obj kvs3) =>
          match lookupKey kvs3 contentKey with
          | some (.str s) => some s
          | _ => none
        | _ => none
      | _ => none
    | _ => none
  | _ => none

/-- Lines 158–164: when the raw text contains `'"content":'` it is parsed
as the full HTTP response and the nested content string extracted (any
failure escaping as an exception); otherwise the raw text passes through
unchanged. -/
def unwrap (raw : List Char) : Except PErr (List Char) :=
  if containsSub contentMarker raw then
    match json_loads raw with
    | none => .error .malformedEnvelope
    | some v =>
      match extractContent v with
      | none => .error .malformedEnvelope
      | some s => .ok s
  else .ok raw

/-- `parse_perplexity_response` (lines 139–204): unwrap, locate, sanitize,
decode, restore; every stage failure escapes as the corresponding error. -/
def parse_perplexity_response (raw : List Char) : Except PErr JVal :=
  match unwrap raw with
  | .error e => .error e
  | .ok text =>
    match locate text with
    | none => .error .noObjectFound
    | some cand =>
      match decodeChain (sanitize cand) with
      | none => .error .decodeFailed
      | some v => .ok (restore_newlines v)

/-! ## The callers -/

def citationsKey : List Char := "citations".data

/-- The response handling of `query_perplexity` in `perplexity_shell.py`
(lines 259–267): parse the body, look up `json.loads(body)["citations"]`,
and return both — but the enclosing `except Exception` block only logs, so
any failure makes the function fall through and return `None`. -/
def handle_response_shell (body : List Char) : Option (JVal × JVal) :=
  match parse_perplexity_response body with
  | .error _ => none
  | .ok content =>
    match json_loads body with
    | none => none
    | some (.obj kvs) =>
      match lookupKey kvs citationsKey with
      | none => none
      | some cits => some (content, cits)
    | some _ => none

/-- The exceptions `query_perplexity` in `perplexity_query.py` can raise
from its response handling. -/
inductive PqErr where
  | invalidJson
  | typeError
  | keyError
deriving DecidableEq

/-- The fallback string of `perplexity_query.py` line 80. -/
def pqNoResult : List Char := "No result from Perplexity.".data

/-- Membership of a string among parsed array items (Python's `in`). -/
def hasStrItem : JItems → List Char → Bool
  | .nil, _ => false
  | .cons x xs, s =>
    (match x with | .str t => t = s | _ => false) || hasStrItem xs s

/-- Lines 72–80 of `perplexity_query.py`: decode the body (a decode error
becomes `ValueError`), and `if "choices" in response_json and
len(response_json["choices"]) > 0` return
`response_json["choices"][0]["message"]["content"]`, else return the
literal fallback `"No result from Perplexity."`.  The non-dict shapes
reproduce Python's `in`/`len`/indexing errors (`TypeError`/`KeyError`). -/
def pq_choices_extract (body : List Char) : Except PqErr JVal :=
  match json_loads body with
  | none => .error .invalidJson
  | some v =>
    match v with
    | .obj kvs =>
      match lookupKey kvs choicesKey with
      | none => .ok (.str pqNoResult)
      | some (.arr .nil) => .ok (.str pqNoResult)
      | some (.arr (.cons first _)) =>
        match first with
        | .obj kvs2 =>
          match lookupKey kvs2 messageKey with
          | none => .error .keyError
          | some (.obj kvs3) =>
            match lookupKey kvs3 contentKey with
            | none => .error .keyError
            | some cv => .ok cv
          | some _ => .error .typeError
        | _ => .error .typeError
      | some (.str s) => if s = [] then .ok (.str pqNoResult) else .error .typeError
      | some (.obj inner) =>
        match inner with
        | .nil => .ok (.str pqNoResult)
        | _ => .error .keyError
      | some _ => .error .typeError
    | .str s =>
      if containsSub choicesKey s then .error .typeError else .ok (.str pqNoResult)
    | .arr xs =>
      if hasStrItem xs choicesKey then .error .typeError else .ok (.str pqNoResult)
    | _ => .error .typeError

/-! ## The citation annotator -/

/-- The marker `[i]` that `re.sub(f"\\[{i}\\]", …)` matches literally. -/
def markerOf (i : Nat) : List Char := '[' :: natChars i ++ [']']

/-- The replacement `f"[link={url}][cyan][{i}][/cyan][/link]"`. -/
def linkForm (i : Nat) (url : List Char) : List Char :=
  "[link=".data ++ url ++ "][cyan][".data ++ natChars i ++ "][/cyan][/link]".data

/-- `citation if citation else "#"` (line 50): an empty entry falls back
to `"#"`. -/
def citUrl (cit : List Char) : List Char := if cit = [] then "#".data else cit

/-- The enumerated loop of lines 49–55, one `re.sub` per citation index. -/
def formatCitationsGo : Nat → List (List Char) → List Char → List Char
  | _, [], content => content
  | i, cit :: rest, content =>
    formatCitationsGo (i + 1) rest (replaceAll (markerOf i) (linkForm i (citUrl cit)) content)

/-- Minimal string-literal escaping: `"` and `\` escaped, everything else
— including a literal newline — left raw. -/
def escML : List Char → List Char
  | [] => []
  | c :: rest =>
    if c = '\x22' then '\\' :: '\x22' :: escML rest
    else if c = '\\' then '\\' :: '\\' :: escML rest
    else c :: escML rest

mutual
/-- The canonical JSON-like rendering of a value tree, with raw newlines
inside string literals. -/
def encV : JVal → List Char
  | .str s => '\x22' :: (escML s ++ ['\x22'])
  | .num n => encInt n
  | .bool b => if b then "true".data else "false".data
  | .null => "null".data
  | .arr xs => '[' :: (encItems xs ++ [']'])
  | .obj kvs => '\x7b' :: (encFields kvs ++ ['\x7d'])
def encItems : JItems → List Char
  | .nil => []
  | .cons x .nil => encV x
  | .cons x (JItems.cons y ys) => encV x ++ ',' :: encItems (JItems.cons y ys)
def encFields : JFields → List Char
  | .nil => []
  | .cons k v .nil => '\x22' :: (escML k ++ '\x22' :: ':' :: encV v)
  | .cons k v (JFields.cons k2 v2 rest) =>
    ('\x22' :: (escML k ++ '\x22' :: ':' :: encV v)) ++ ',' :: encFields (JFields.cons k2 v2 rest)
end

/-- One protected string: every newline replaced by the placeholder. -/
def protectStr : List Char → List Char
  | [] => []
  | c :: rest => (if c = '\n' then placeholder else [c]) ++ protectStr rest

mutual
/-- The value tree after newline protection: every string value has its
newlines replaced by the placeholder; keys are untouched. -/
def protectVal : JVal → JVal
  | .str s => .str (protectStr s)
  | .num n => .num n
  | .bool b => .bool b
  | .null => .null
  | .arr xs => .arr (protectItemsV xs)
  | .obj kvs => .obj (protectFieldsV kvs)
def protectItemsV : JItems → JItems
  | .nil => .nil
  | .cons x xs => .cons (protectVal x) (protectItemsV xs)
def protectFieldsV : JFields → JFields
  | .nil => .nil
  | .cons k v kvs => .cons k (protectVal v) (protectFieldsV kvs)
end

/-- Printable characters only (at or above `0x20`). -/
def printableStr (s : List Char) : Bool := s.all (fun c => 0x20 ≤ c.toNat)

/-- String-value characters allowed in the round-trip property: printable
or a literal newline. -/
def strCharsOk (s : List Char) : Bool := s.all (fun c => c = '\n' || 0x20 ≤ c.toNat)

/-- No backslash character directly followed by a newline character. -/
def noBSNL : List Char → Bool
  | [] => true
  | [_] => true
  | c1 :: c2 :: rest => !(c1 = '\\' && c2 = '\n') && noBSNL (c2 :: rest)

/-- A good string value: printable-or-newline characters, no backslash
directly before a newline, and no occurrence of the placeholder token. -/
def goodStr (s : List Char) : Bool :=
  strCharsOk s && noBSNL s && !containsSub placeholder s

mutual
/-- A good value tree for the round-trip property: good string values,
printable keys, and per-object distinct keys. -/
def goodV : JVal → Bool
  | .str s => goodStr s
  | .num _ => true
  | .bool _ => true
  | .null => true
  | .arr xs => goodItems xs
  | .obj kvs => goodFields kvs
def goodItems : JItems → Bool
  | .nil => true
  | .cons x xs => goodV x && goodItems xs
def goodFields : JFields → Bool
  | .nil => true
  | .cons k v rest => printableStr k && !hasKey rest k && goodV v && goodFields rest
end

mutual
/-- Values in the image of `json.loads` relevant here: every string
(values and keys) printable, keys distinct — what `protectVal` produces
on good trees. -/
def jsonOkV : JVal → Bool
  | .str s => printableStr s
  | .num _ => true
  | .bool _ => true
  | .null => true
  | .arr xs => jsonOkItems xs
  | .obj kvs => jsonOkFields kvs
def jsonOkItems : JItems → Bool
  | .nil => true
  | .cons x xs => jsonOkV x && jsonOkItems xs
def jsonOkFields : JFields → Bool
  | .nil => true
  | .cons k v rest => printableStr k && !hasKey rest k && jsonOkV v && jsonOkFields rest
end

/-! ## Digit strings -/

theorem digitChar_isDigit (d : Nat) (h : d < 10) : isDigitCh (Nat.digitChar d) = true := by
  interval_cases d <;> decide

theorem digitChar_toNat (d : Nat) (h : d < 10) : (Nat.digitChar d).toNat = 48 + d := by
  interval_cases d <;> decide

theorem digitChar_ne_zero (d : Nat) (h0 : 0 < d) (h : d < 10) : Nat.digitChar d ≠ '0' := by
  interval_cases d <;> decide

theorem natCharsGo_zero (f : Nat) (acc : List Char) : natCharsGo f 0 acc = acc := by
  cases f <;> simp [natCharsGo]

theorem natCharsGo_irrel : ∀ f g n acc, n ≤ f → n ≤ g →
    natCharsGo f n acc = natCharsGo g n acc := by
  intro f
  induction f with
  | zero =>
    intro g n acc hf _
    have : n = 0 := Nat.le_zero.mp hf
    subst this
    rw [natCharsGo_zero, natCharsGo_zero]
  | succ f ih =>
    intro g n acc hf hg
    by_cases hn : n = 0
    · subst hn
      rw [natCharsGo_zero, natCharsGo_zero]
    · cases g with
      | zero => omega
      | succ g' =>
        have hd : n / 10 < n := Nat.div_lt_self (Nat.pos_of_ne_zero hn) (by norm_num)
        simp only [natCharsGo, if_neg hn]
        exact ih g' (n / 10) _ (by omega) (by omega)

theorem natCharsGo_append : ∀ f n acc, natCharsGo f n acc = natCharsGo f n [] ++ acc := by
  intro f
  induction f with
  | zero => intro n acc; simp [natCharsGo]
  | succ f ih =>
    intro n acc
    by_cases hn : n = 0
    · subst hn; simp [natCharsGo]
    · simp only [natCharsGo, if_neg hn]
      rw [ih (n / 10) (Nat.digitChar (n % 10) :: acc), ih (n / 10) [Nat.digitChar (n % 10)]]
      simp

/-- One unfolding step of `natChars` in last-digit form. -/
theorem natChars_unfold (n : Nat) (hn : n ≠ 0) :
    natChars n = (if n < 10 then [] else natChars (n / 10)) ++ [Nat.digitChar (n % 10)] := by
  have hpos := Nat.pos_of_ne_zero hn
  have hd : n / 10 < n := Nat.div_lt_self hpos (by norm_num)
  conv_lhs => rw [natChars, if_neg hn]
  cases n with
  | zero => omega
  | succ m =>
    simp only [natCharsGo, if_neg hn]
    rw [natCharsGo_append]
    by_cases h10 : m + 1 < 10
    · have : (m + 1) / 10 = 0 := by omega
      rw [this, natCharsGo_zero, if_pos h10]
    · rw [if_neg h10, natChars, if_neg (by omega : ¬(m + 1) / 10 = 0)]
      rw [natCharsGo_irrel m ((m + 1) / 10) ((m + 1) / 10) [] (by omega) (le_refl _)]

theorem natChars_all_digits (n : Nat) : (natChars n).all isDigitCh = true := by
  induction n using Nat.strong_induction_on with
  | _ n ih =>
    by_cases hn : n = 0
    · subst hn; decide
    · rw [natChars_unfold n hn]
      have hdig := digitChar_isDigit (n % 10) (Nat.mod_lt _ (by norm_num))
      by_cases h10 : n < 10
      · simp [h10, hdig]
      · have hd : n / 10 < n := Nat.div_lt_self (Nat.pos_of_ne_zero hn) (by norm_num)
        have := ih (n / 10) hd
        simp only [if_neg h10, List.all_append, this, Bool.true_and, List.all_cons,
          hdig, List.all_nil, Bool.and_true]

theorem natChars_head (n : Nat) (hn : n ≠ 0) :
    ∃ d rest, natChars n = d :: rest ∧ isDigitCh d = true ∧ d ≠ '0' := by
  induction n using Nat.strong_induction_on with
  | _ n ih =>
    rw [natChars_unfold n hn]
    by_cases h10 : n < 10
    · refine ⟨Nat.digitChar (n % 10), [], by simp [h10], digitChar_isDigit _ (by omega), ?_⟩
      have : n % 10 = n := Nat.mod_eq_of_lt h10
      exact digitChar_ne_zero (n % 10) (by omega) (by omega)
    · have hd : n / 10 < n := Nat.div_lt_self (Nat.pos_of_ne_zero hn) (by norm_num)
      obtain ⟨d, rest, heq, hdig, hne⟩ := ih (n / 10) hd (by omega)
      exact ⟨d, rest ++ [Nat.digitChar (n % 10)], by simp [h10, heq], hdig, hne⟩

theorem digitsVal_append_digit (A : List Char) (d : Char) :
    digitsVal (A ++ [d]) = digitsVal A * 10 + (d.toNat - 48) := by
  simp [digitsVal, List.foldl_append]

theorem digitsVal_natChars (n : Nat) : digitsVal (natChars n) = n := by
  induction n using Nat.strong_induction_on with
  | _ n ih =>
    by_cases hn : n = 0
    · subst hn; decide
    · rw [natChars_unfold n hn, digitsVal_append_digit,
        digitChar_toNat (n % 10) (Nat.mod_lt _ (by norm_num))]
      by_cases h10 : n < 10
      · simp only [if_pos h10]
        have : digitsVal [] = 0 := rfl
        rw [this]
        omega
      · have hd : n / 10 < n := Nat.div_lt_self (Nat.pos_of_ne_zero hn) (by norm_num)
        rw [if_neg h10, ih (n / 10) hd]
        omega

/-! ## Literal replacement: equations and basic facts -/

theorem replaceAllGo_nil (pat rep : List Char) (f : Nat) : replaceAllGo pat rep f [] = [] := by
  cases f <;> rfl

theorem replaceAllGo_succ_cons (pat rep : List Char) (f : Nat) (c : Char) (rest : List Char) :
    replaceAllGo pat rep (f + 1) (c :: rest) =
      if pat ≠ [] ∧ pat.isPrefixOf (c :: rest) then
        rep ++ replaceAllGo pat rep f ((c :: rest).drop pat.length)
      else c :: replaceAllGo pat rep f rest := by
  conv_lhs => rw [replaceAllGo.eq_def]

theorem replaceAllGo_irrel (pat rep : List Char) : ∀ f s, s.length ≤ f → ∀ g, s.length ≤ g →
    replaceAllGo pat rep f s = replaceAllGo pat rep g s := by
  intro f
  induction f with
  | zero =>
    intro s hs g _
    have : s = [] := by cases s with | nil => rfl | cons _ _ => simp at hs
    subst this
    rw [replaceAllGo_nil, replaceAllGo_nil]
  | succ f ih =>
    intro s hs g hg
    cases s with
    | nil => rw [replaceAllGo_nil, replaceAllGo_nil]
    | cons c rest =>
      cases g with
      | zero => simp at hg
      | succ g' =>
        rw [replaceAllGo_succ_cons, replaceAllGo_succ_cons]
        by_cases hp : pat ≠ [] ∧ pat.isPrefixOf (c :: rest) = true
        · rw [if_pos hp, if_pos hp]
          have hpat : 1 ≤ pat.length := by
            cases pat with
            | nil => exact absurd rfl hp.1
            | cons _ _ => simp
          have hlen : ((c :: rest).drop pat.length).length ≤ f := by
            simp only [List.length_drop, List.length_cons]
            simp only [List.length_cons] at hs
            omega
          have hlen' : ((c :: rest).drop pat.length).length ≤ g' := by
            simp only [List.length_drop, List.length_cons]
            simp only [List.length_cons] at hg
            omega
          rw [ih _ hlen g' hlen']
        · rw [if_neg hp, if_neg hp]
          simp only [List.length_cons] at hs hg
          rw [ih rest (by omega) g' (by omega)]

theorem replaceAll_nil (pat rep : List Char) : replaceAll pat rep [] = [] := rfl

theorem replaceAll_cons (pat rep : List Char) (c : Char) (rest : List Char) :
    replaceAll pat rep (c :: rest) =
      if pat ≠ [] ∧ pat.isPrefixOf (c :: rest) then
        rep ++ replaceAll pat rep ((c :: rest).drop pat.length)
      else c :: replaceAll pat rep rest := by
  rw [replaceAll, List.length_cons, replaceAllGo_succ_cons]
  by_cases hp : pat ≠ [] ∧ pat.isPrefixOf (c :: rest) = true
  · rw [if_pos hp, if_pos hp]
    have hpat : 1 ≤ pat.length := by
      cases pat with
      | nil => exact absurd rfl hp.1
      | cons _ _ => simp
    rw [replaceAll]
    rw [replaceAllGo_irrel pat rep rest.length _ (by simp [List.length_drop]; omega)
      ((c :: rest).drop pat.length).length (le_refl _)]
  · rw [if_neg hp, if_neg hp, replaceAll]

theorem containsSub_cons (pat : List Char) (c : Char) (rest : List Char) :
    containsSub pat (c :: rest) = (pat.isPrefixOf (c :: rest) || containsSub pat rest) := rfl

theorem replaceAll_no_occurrence (pat rep : List Char) :
    ∀ s, containsSub pat s = false → replaceAll pat rep s = s := by
  intro s
  induction s with
  | nil => intro _; rfl
  | cons c rest ih =>
    intro h
    rw [containsSub_cons, Bool.or_eq_false_iff] at h
    rw [replaceAll_cons, if_neg (by simp [h.1]), ih h.2]

/-! ## Placeholder protection and restoration of one string -/

theorem placeholder_eq : placeholder =
    '\x7b' :: '\x7b' :: 'N' :: 'E' :: 'W' :: 'L' :: 'I' :: 'N' :: 'E' :: '\x7d' :: '\x7d' :: [] :=
  rfl

theorem protectStr_cons (c : Char) (rest : List Char) :
    protectStr (c :: rest) = (if c = '\n' then placeholder else [c]) ++ protectStr rest := rfl

theorem isPrefixOf_self_append : ∀ (l x : List Char), l.isPrefixOf (l ++ x) = true := by
  intro l x
  induction l with
  | nil => simp [List.isPrefixOf]
  | cons c rest ih => simp [List.isPrefixOf, ih]

/-- A pattern that contains neither `{` nor a newline is a prefix of a
protected string only when it is a prefix of the original string. -/
theorem prefix_protectStr_of_clean :
    ∀ r : List Char, (∀ c ∈ r, c ≠ '\x7b' ∧ c ≠ '\n') →
    ∀ t, r.isPrefixOf (protectStr t) = true → r.isPrefixOf t = true := by
  intro r
  induction r with
  | nil => intro _ t _; simp [List.isPrefixOf]
  | cons a r' ih =>
    intro h t hp
    cases t with
    | nil => simp [protectStr, List.isPrefixOf] at hp
    | cons d t' =>
      rw [protectStr_cons] at hp
      by_cases hd : d = '\n'
      · rw [if_pos hd, placeholder_eq] at hp
        simp only [List.cons_append, List.isPrefixOf, Bool.and_eq_true, beq_iff_eq] at hp
        exact absurd hp.1 (h a (by simp)).1
      · rw [if_neg hd] at hp
        simp only [List.cons_append, List.nil_append, List.isPrefixOf, Bool.and_eq_true,
          beq_iff_eq] at hp
        simp only [List.isPrefixOf, Bool.and_eq_true, beq_iff_eq]
        exact ⟨hp.1, ih (fun c hc => h c (by simp [hc])) t' hp.2⟩

/-- The placeholder occurs in `c :: protectStr t` (with `c` not a newline)
only where it already occurs in `c :: t`. -/
theorem placeholder_prefix_shift (c : Char) (t : List Char) :
    placeholder.isPrefixOf (c :: protectStr t) = true →
    placeholder.isPrefixOf (c :: t) = true := by
  intro hp
  rw [placeholder_eq] at hp ⊢
  simp only [List.isPrefixOf, Bool.and_eq_true, beq_iff_eq] at hp ⊢
  refine ⟨hp.1, ?_⟩
  have htail := hp.2
  cases t with
  | nil => simp [protectStr, List.isPrefixOf] at htail
  | cons d t' =>
    rw [protectStr_cons] at htail
    by_cases hd : d = '\n'
    · rw [if_pos hd, placeholder_eq] at htail
      simp [List.isPrefixOf] at htail
    · rw [if_neg hd] at htail
      simp only [List.cons_append, List.nil_append, List.isPrefixOf, Bool.and_eq_true,
        beq_iff_eq] at htail ⊢
      refine ⟨htail.1, ?_⟩
      have := prefix_protectStr_of_clean ('N' :: 'E' :: 'W' :: 'L' :: 'I' :: 'N' :: 'E' ::
        '\x7d' :: '\x7d' :: []) (by decide) t' (by
          simpa [List.isPrefixOf] using htail.2)
      simpa [List.isPrefixOf] using this

/-- Replacement at an occurrence sitting at the head of the text. -/
theorem replaceAll_self_prefix (pat rep x : List Char) (hp : pat ≠ []) :
    replaceAll pat rep (pat ++ x) = rep ++ replaceAll pat rep x := by
  cases pat with
  | nil => exact absurd rfl hp
  | cons p0 ptail =>
    rw [List.cons_append, replaceAll_cons,
      if_pos ⟨by simp, by rw [← List.cons_append]; exact isPrefixOf_self_append _ _⟩]
    congr 1
    rw [← List.cons_append, List.drop_left]

/-- Restoring a protected string recovers the original, provided the
original contained no placeholder occurrence of its own. -/
theorem restoreStr_protectStr :
    ∀ s, containsSub placeholder s = false → restoreStr (protectStr s) = s := by
  intro s
  induction s with
  | nil => intro _; rfl
  | cons c rest ih =>
    intro h
    rw [containsSub_cons, Bool.or_eq_false_iff] at h
    rw [protectStr_cons]
    by_cases hc : c = '\n'
    · rw [if_pos hc, restoreStr,
        replaceAll_self_prefix _ _ _ (by rw [placeholder_eq]; simp)]
      have hrest : restoreStr (protectStr rest) = rest := ih h.2
      rw [restoreStr] at hrest
      rw [hrest, hc]
      rfl
    · rw [if_neg hc]
      simp only [List.singleton_append]
      rw [restoreStr, replaceAll_cons]
      rw [if_neg ?hneg]
      case hneg =>
        intro hand
        have hpre := placeholder_prefix_shift c rest hand.2
        rw [h.1] at hpre
        exact Bool.noConfusion hpre
      have hrest : restoreStr (protectStr rest) = rest := ih h.2
      rw [restoreStr] at hrest
      rw [hrest]

/-! ## Parser round-trip: strings -/

theorem escML_cons (c : Char) (rest : List Char) :
    escML (c :: rest) =
      if c = '\x22' then '\\' :: '\x22' :: escML rest
      else if c = '\\' then '\\' :: '\\' :: escML rest
      else c :: escML rest := rfl

theorem parseUEsc_shrink : ∀ r ch r3, parseUEsc r = some (ch, r3) → r3.length + 4 ≤ r.length := by
  intro r ch r3 h
  rw [parseUEsc.eq_def] at h
  split at h
  · split at h
    · dsimp only [] at h
      split at h
      · exact absurd h (by simp)
      · simp only [Option.some.injEq, Prod.mk.injEq] at h
        obtain ⟨_, rfl⟩ := h
        simp
    · exact absurd h (by simp)
  · exact absurd h (by simp)

theorem parseEscStep_shrink : ∀ rest ch r2,
    parseEscStep rest = some (ch, r2) → r2.length < rest.length := by
  intro rest ch r2 h
  rw [parseEscStep.eq_def] at h
  split at h
  · exact absurd h (by simp)
  · rename_i e r2'
    by_cases hu : e = 'u'
    · rw [if_pos hu] at h
      have := parseUEsc_shrink r2' ch r2 h
      simp only [List.length_cons]
      omega
    · rw [if_neg hu] at h
      obtain ⟨ch2, h2, heq⟩ := Option.map_eq_some'.mp h
      simp only [Prod.mk.injEq] at heq
      obtain ⟨_, rfl⟩ := heq
      simp

theorem parseStrGo_irrel : ∀ f s, s.length ≤ f → ∀ g, s.length ≤ g →
    parseStrGo f s = parseStrGo g s := by
  intro f
  induction f with
  | zero =>
    intro s hs g _
    have : s = [] := by cases s with | nil => rfl | cons _ _ => simp at hs
    subst this
    cases g <;> rfl
  | succ f ih =>
    intro s hs g hg
    cases s with
    | nil => cases g <;> rfl
    | cons c rest =>
      cases g with
      | zero => simp at hg
      | succ g' =>
        have step : ∀ fu, parseStrGo (fu + 1) (c :: rest) =
            if c = '\x22' then some ([], rest)
            else if c = '\\' then
              match parseEscStep rest with
              | none => none
              | some (ch, r2) => (parseStrGo fu r2).map (fun p => (ch :: p.1, p.2))
            else if c.toNat < 0x20 then none
            else (parseStrGo fu rest).map (fun p => (c :: p.1, p.2)) := by
          intro fu
          conv_lhs => rw [parseStrGo.eq_def]
        rw [step f, step g']
        simp only [List.length_cons] at hs hg
        by_cases hq : c = '\x22'
        · rw [if_pos hq, if_pos hq]
        · rw [if_neg hq, if_neg hq]
          by_cases hb : c = '\\'
          · rw [if_pos hb, if_pos hb]
            cases hE : parseEscStep rest with
            | none => rfl
            | some p =>
              obtain ⟨ch, r2⟩ := p
              have hlen := parseEscStep_shrink rest ch r2 hE
              simp only [ih r2 (by omega) g' (by omega)]
          · rw [if_neg hb, if_neg hb]
            by_cases hctl : c.toNat < 0x20
            · rw [if_pos hctl, if_pos hctl]
            · rw [if_neg hctl, if_neg hctl, ih rest (by omega) g' (by omega)]

theorem parseStrBody_nil : parseStrBody [] = none := rfl

theorem parseStrBody_cons (c : Char) (rest : List Char) :
    parseStrBody (c :: rest) =
      if c = '\x22' then some ([], rest)
      else if c = '\\' then
        match parseEscStep rest with
        | none => none
        | some (ch, r2) => (parseStrBody r2).map (fun p => (ch :: p.1, p.2))
      else if c.toNat < 0x20 then none
      else (parseStrBody rest).map (fun p => (c :: p.1, p.2)) := by
  have step : parseStrGo (rest.length + 1) (c :: rest) =
      if c = '\x22' then some ([], rest)
      else if c = '\\' then
        match parseEscStep rest with
        | none => none
        | some (ch, r2) => (parseStrGo rest.length r2).map (fun p => (ch :: p.1, p.2))
      else if c.toNat < 0x20 then none
      else (parseStrGo rest.length rest).map (fun p => (c :: p.1, p.2)) := by
    conv_lhs => rw [parseStrGo.eq_def]
  rw [show parseStrBody (c :: rest) = parseStrGo (rest.length + 1) (c :: rest) from rfl, step]
  by_cases hq : c = '\x22'
  · rw [if_pos hq, if_pos hq]
  · rw [if_neg hq, if_neg hq]
    by_cases hb : c = '\\'
    · rw [if_pos hb, if_pos hb]
      cases hE : parseEscStep rest with
      | none => rfl
      | some p =>
        obtain ⟨ch, r2⟩ := p
        have hlen := parseEscStep_shrink rest ch r2 hE
        simp only [parseStrBody,
          parseStrGo_irrel rest.length r2 (by omega) r2.length (le_refl _)]
    · rw [if_neg hb, if_neg hb]
      by_cases hctl : c.toNat < 0x20
      · rw [if_pos hctl, if_pos hctl]
      · rw [if_neg hctl, if_neg hctl, parseStrBody]

theorem parseStrBody_quote (b : List Char) : parseStrBody ('\x22' :: b) = some ([], b) := by
  rw [parseStrBody_cons, if_pos rfl]

theorem parseStrBody_escML : ∀ s b, printableStr s = true →
    parseStrBody (escML s ++ '\x22' :: b) = some (s, b) := by
  intro s
  induction s with
  | nil => intro b _; rw [show escML [] = [] from rfl, List.nil_append, parseStrBody_quote]
  | cons c rest ih =>
    intro b hok
    rw [printableStr, List.all_cons, Bool.and_eq_true] at hok
    have hrest := ih b hok.2
    by_cases hq : c = '\x22'
    · subst hq
      rw [escML_cons, if_pos rfl]
      simp only [List.cons_append]
      rw [parseStrBody_cons, if_neg (by decide), if_pos rfl]
      simp only [show parseEscStep ('\x22' :: (escML rest ++ '\x22' :: b))
          = some ('\x22', escML rest ++ '\x22' :: b) from rfl, hrest]
      rfl
    · by_cases hb : c = '\\'
      · subst hb
        rw [escML_cons, if_neg (by decide), if_pos rfl]
        simp only [List.cons_append]
        rw [parseStrBody_cons, if_neg (by decide), if_pos rfl]
        simp only [show parseEscStep ('\\' :: (escML rest ++ '\x22' :: b))
            = some ('\\', escML rest ++ '\x22' :: b) from rfl, hrest]
        rfl
      · rw [escML_cons, if_neg hq, if_neg hb]
        simp only [List.cons_append]
        rw [parseStrBody_cons, if_neg hq, if_neg hb, if_neg (by
          have := hok.1
          simp only [decide_eq_true_eq] at this
          omega)]
        rw [hrest]
        rfl

/-! ## Parser round-trip: numbers -/

/-- A remainder that cannot extend a parsed digit run. -/
def numDelim : List Char → Bool
  | [] => true
  | c :: _ => !isDigitCh c

theorem takeWhile_digits_append : ∀ A rest, A.all isDigitCh = true → numDelim rest = true →
    (A ++ rest).takeWhile isDigitCh = A ∧ (A ++ rest).dropWhile isDigitCh = rest := by
  intro A
  induction A with
  | nil =>
    intro rest _ hrest
    cases rest with
    | nil => simp
    | cons c t =>
      rw [numDelim] at hrest
      simp only [Bool.not_eq_true'] at hrest
      simp [List.takeWhile_cons, List.dropWhile_cons, hrest]
  | cons a A' ih =>
    intro rest hall hrest
    rw [List.all_cons, Bool.and_eq_true] at hall
    have := ih rest hall.2 hrest
    simp [List.takeWhile_cons, List.dropWhile_cons, hall.1, this.1, this.2]

theorem parseNum_natChars (m : Nat) (rest : List Char) (hrest : numDelim rest = true) :
    parseNum (natChars m ++ rest) = some (m, rest) := by
  by_cases hm : m = 0
  · subst hm
    rw [show natChars 0 = ['0'] from rfl]
    simp [parseNum]
  · obtain ⟨d, ds, heq, hdig, hne⟩ := natChars_head m hm
    have hall : (natChars m).all isDigitCh = true := natChars_all_digits m
    rw [heq, List.all_cons, Bool.and_eq_true] at hall
    obtain ⟨htake, hdrop⟩ := takeWhile_digits_append ds rest hall.2 hrest
    rw [heq, List.cons_append, parseNum, if_neg hne, if_pos hall.1, htake, hdrop]
    have : digitsVal (d :: ds) = m := by
      have := digitsVal_natChars m
      rwa [heq] at this
    rw [this]

/-! ## Parser round-trip: heads, whitespace, and branch selection -/

theorem digit_head_facts (c : Char) (h : isDigitCh c = true) :
    isWsCh c = false ∧ c ≠ '\x22' ∧ c ≠ '\x7b' ∧ c ≠ '[' ∧ c ≠ 'n' ∧ c ≠ 't' ∧ c ≠ 'f' ∧
      c ≠ '-' ∧ c ≠ ']' ∧ c ≠ '\x7d' ∧ c ≠ ',' := by
  refine ⟨?_, ?_, ?_, ?_, ?_, ?_, ?_, ?_, ?_, ?_, ?_⟩
  · rw [isWsCh]
    simp only [Bool.or_eq_false_iff, decide_eq_false_iff_not]
    refine ⟨⟨⟨?_, ?_⟩, ?_⟩, ?_⟩ <;> (intro hEq; subst hEq; exact absurd h (by decide))
  all_goals (intro hEq; subst hEq; exact absurd h (by decide))

theorem skipWs_not_ws (c : Char) (x : List Char) (h : isWsCh c = false) :
    skipWs (c :: x) = c :: x := by
  simp [skipWs, List.dropWhile_cons, h]

/-- Every rendered value begins with a character that is not whitespace
and none of the closing delimiters. -/
theorem encV_head (v : JVal) :
    ∃ c t, encV v = c :: t ∧ isWsCh c = false ∧ c ≠ ']' ∧ c ≠ '\x7d' ∧ c ≠ ',' := by
  cases v with
  | str s => exact ⟨'\x22', _, rfl, by decide, by decide, by decide, by decide⟩
  | bool b => cases b with
    | true => exact ⟨'t', _, rfl, by decide, by decide, by decide, by decide⟩
    | false => exact ⟨'f', _, rfl, by decide, by decide, by decide, by decide⟩
  | null => exact ⟨'n', _, rfl, by decide, by decide, by decide, by decide⟩
  | arr xs => exact ⟨'[', _, rfl, by decide, by decide, by decide, by decide⟩
  | obj kvs => exact ⟨'\x7b', _, rfl, by decide, by decide, by decide, by decide⟩
  | num n =>
    rw [show encV (.num n) = encInt n from rfl, encInt]
    by_cases hn : n < 0
    · exact ⟨'-', natChars n.natAbs, by rw [if_pos hn], by decide, by decide, by decide,
        by decide⟩
    · by_cases h0 : n.natAbs = 0
      · refine ⟨'0', [], ?_, by decide, by decide, by decide, by decide⟩
        rw [if_neg hn, h0]
        rfl
      · obtain ⟨d, ds, heq, hdig, _⟩ := natChars_head n.natAbs h0
        obtain ⟨hws, _, _, _, _, _, _, _, hbr, hbc, hcm⟩ := digit_head_facts d hdig
        exact ⟨d, ds, by rw [if_neg hn, heq], hws, hbr, hbc, hcm⟩

theorem skipWs_encV (v : JVal) (x : List Char) :
    skipWs (encV v ++ x) = encV v ++ x := by
  obtain ⟨c, t, heq, hws, _, _, _⟩ := encV_head v
  rw [heq, List.cons_append, skipWs_not_ws c _ hws]

/-! ## Induction principles for the field and item spines -/

theorem fieldsIndOn {P : JFields → Prop} (hnil : P .nil)
    (hcons : ∀ k v rest, P rest → P (.cons k v rest)) : ∀ fs, P fs
  | .nil => hnil
  | .cons k v rest => hcons k v rest (fieldsIndOn hnil hcons rest)

theorem itemsIndOn {P : JItems → Prop} (hnil : P .nil)
    (hcons : ∀ x rest, P rest → P (.cons x rest)) : ∀ xs, P xs
  | .nil => hnil
  | .cons x rest => hcons x rest (itemsIndOn hnil hcons rest)

/-! ## `dict(pairs)` on distinct keys -/

/-- Concatenation of field lists. -/
def appF : JFields → JFields → JFields
  | .nil, g => g
  | .cons k v rest, g => .cons k v (appF rest g)

/-- Every key of the second list is absent from the first. -/
def keysFresh : JFields → JFields → Bool
  | _, .nil => true
  | acc, .cons k _ rest => !hasKey acc k && keysFresh acc rest

theorem appF_nil_right : ∀ fs, appF fs .nil = fs := by
  intro fs
  induction fs using fieldsIndOn with
  | hnil => rfl
  | hcons k v rest ih => rw [appF, ih]

theorem appF_assoc : ∀ a b c, appF (appF a b) c = appF a (appF b c) := by
  intro a b c
  induction a using fieldsIndOn with
  | hnil => rfl
  | hcons k v rest ih => rw [appF, appF, appF, ih]

theorem insertKey_fresh : ∀ acc k v, hasKey acc k = false →
    insertKey acc k v = appF acc (.cons k v .nil) := by
  intro acc k v h
  induction acc using fieldsIndOn with
  | hnil => rfl
  | hcons k0 v0 rest ih =>
    rw [hasKey, Bool.or_eq_false_iff] at h
    rw [insertKey, if_neg (by simpa using h.1), appF, ih h.2]

theorem hasKey_insertKey : ∀ acc k v k', hasKey (insertKey acc k v) k' =
    (hasKey acc k' || decide (k = k')) := by
  intro acc k v k'
  induction acc using fieldsIndOn with
  | hnil =>
    rw [insertKey, hasKey, hasKey, hasKey]
    simp [decide_eq_true_eq, eq_comm]
  | hcons k0 v0 rest ih =>
    rw [insertKey]
    by_cases h0 : k0 = k
    · subst h0
      rw [if_pos rfl, hasKey, hasKey]
      by_cases hk : k0 = k'
      · simp [hk]
      · simp [hk, eq_comm]
    · rw [if_neg h0, hasKey, hasKey, ih]
      by_cases hk : k0 = k'
      · simp [hk]
      · simp [hk, Bool.or_assoc]

theorem keysFresh_insert : ∀ rest acc k v, keysFresh acc rest = true → hasKey rest k = false →
    keysFresh (insertKey acc k v) rest = true := by
  intro rest
  induction rest using fieldsIndOn with
  | hnil => intro _ _ _ _ _; rfl
  | hcons k' v' rest' ih =>
    intro acc k v hfresh hk
    rw [keysFresh, Bool.and_eq_true] at hfresh
    rw [hasKey, Bool.or_eq_false_iff] at hk
    rw [keysFresh, Bool.and_eq_true]
    refine ⟨?_, ih acc k v hfresh.2 hk.2⟩
    rw [hasKey_insertKey]
    have h1 : hasKey acc k' = false := by simpa using hfresh.1
    have h2 : decide (k = k') = false := by
      simp only [decide_eq_false_iff_not]
      intro hEq
      subst hEq
      simp at hk
    simp [h1, h2]

theorem mkDictGo_fresh : ∀ fs acc, keysDistinct fs = true → keysFresh acc fs = true →
    mkDictGo acc fs = appF acc fs := by
  intro fs
  induction fs using fieldsIndOn with
  | hnil => intro acc _ _; rw [mkDictGo, appF_nil_right]
  | hcons k v rest ih =>
    intro acc hdist hfresh
    rw [keysDistinct, Bool.and_eq_true] at hdist
    rw [keysFresh, Bool.and_eq_true] at hfresh
    rw [mkDictGo, ih (insertKey acc k v) hdist.2
      (keysFresh_insert rest acc k v hfresh.2 (by simpa using hdist.1)),
      insertKey_fresh acc k v (by simpa using hfresh.1), appF_assoc]
    rfl

theorem keysFresh_nil_left : ∀ fs, keysFresh .nil fs = true := by
  intro fs
  induction fs using fieldsIndOn with
  | hnil => rfl
  | hcons k v rest ih => rw [keysFresh, hasKey, ih]; rfl

theorem mkDict_distinct (fs : JFields) (h : keysDistinct fs = true) : mkDict fs = fs := by
  rw [mkDict, mkDictGo_fresh fs .nil h (keysFresh_nil_left fs)]
  rfl

theorem jsonOkFields_distinct : ∀ fs, jsonOkFields fs = true → keysDistinct fs = true := by
  intro fs
  induction fs using fieldsIndOn with
  | hnil => intro _; rfl
  | hcons k v rest ih =>
    intro h
    rw [jsonOkFields, Bool.and_eq_true, Bool.and_eq_true, Bool.and_eq_true] at h
    rw [keysDistinct, Bool.and_eq_true]
    exact ⟨h.1.1.2, ih h.2⟩

/-! ## Parser round-trip: the main induction -/

theorem encItems_single (x : JVal) : encItems (JItems.cons x .nil) = encV x := rfl

theorem encItems_cons2 (x y : JVal) (ys : JItems) :
    encItems (JItems.cons x (JItems.cons y ys)) = encV x ++ ',' :: encItems (JItems.cons y ys) :=
  rfl

theorem encFields_single (k : List Char) (v : JVal) :
    encFields (JFields.cons k v .nil) = '\x22' :: (escML k ++ '\x22' :: ':' :: encV v) := rfl

theorem encFields_cons2 (k : List Char) (v : JVal) (k2 : List Char) (v2 : JVal) (kvs : JFields) :
    encFields (JFields.cons k v (JFields.cons k2 v2 kvs)) =
      ('\x22' :: (escML k ++ '\x22' :: ':' :: encV v)) ++
        ',' :: encFields (JFields.cons k2 v2 kvs) := rfl

theorem numDelim_bracket (x : List Char) : numDelim (']' :: x) = true := rfl

theorem numDelim_brace (x : List Char) : numDelim ('\x7d' :: x) = true := rfl

theorem numDelim_comma (x : List Char) : numDelim (',' :: x) = true := rfl

/-- A rendered item list starts with the head character of its first
value, after any continuation. -/
theorem encItems_decomp (x : JVal) (xs : JItems) :
    ∃ c t2, (∀ y, encItems (JItems.cons x xs) ++ y = c :: (t2 ++ y)) ∧
      isWsCh c = false ∧ c ≠ ']' ∧ c ≠ '\x7d' ∧ c ≠ ',' := by
  obtain ⟨c, t, heq, hws, hbr, hbc, hcm⟩ := encV_head x
  cases xs with
  | nil =>
    refine ⟨c, t, ?_, hws, hbr, hbc, hcm⟩
    intro y
    rw [encItems_single, heq, List.cons_append]
  | cons y2 ys =>
    refine ⟨c, t ++ ',' :: encItems (JItems.cons y2 ys), ?_, hws, hbr, hbc, hcm⟩
    intro y
    rw [encItems_cons2, heq]
    simp [List.append_assoc]

theorem skipWs_encItems (x : JVal) (xs : JItems) (y : List Char) :
    skipWs (encItems (JItems.cons x xs) ++ y) = encItems (JItems.cons x xs) ++ y := by
  obtain ⟨c, t2, hdec, hws, _, _, _⟩ := encItems_decomp x xs
  rw [hdec y, skipWs_not_ws c _ hws]

theorem skipWs_encFields (k : List Char) (v : JVal) (kvs : JFields) (y : List Char) :
    skipWs (encFields (JFields.cons k v kvs) ++ y) = encFields (JFields.cons k v kvs) ++ y := by
  cases kvs with
  | nil =>
    rw [encFields_single, List.cons_append]
    exact skipWs_not_ws '\x22' _ (by decide)
  | cons k2 v2 kvs2 =>
    rw [encFields_cons2]
    simp only [List.cons_append, List.append_assoc]
    exact skipWs_not_ws '\x22' _ (by decide)

theorem parseVal_cons (fuel : Nat) (c : Char) (rest : List Char) :
    parseVal (fuel + 1) (c :: rest) =
      if c = '\x22' then (parseStrBody rest).map (fun p => (JVal.str p.1, p.2))
      else if c = '\x7b' then
        match skipWs rest with
        | [] => none
        | d :: rest1 =>
          if d = '\x7d' then some (JVal.obj .nil, rest1)
          else
            match parseMembers fuel (d :: rest1) with
            | none => none
            | some (fs, r) => some (JVal.obj (mkDict fs), r)
      else if c = '[' then
        match skipWs rest with
        | [] => none
        | d :: rest1 =>
          if d = ']' then some (JVal.arr .nil, rest1)
          else
            match parseItems fuel (d :: rest1) with
            | none => none
            | some (xs, r) => some (JVal.arr xs, r)
      else if c = 'n' then
        match litNull rest with
        | some r => some (JVal.null, r)
        | none => none
      else if c = 't' then
        match litTrue rest with
        | some r => some (JVal.bool true, r)
        | none => none
      else if c = 'f' then
        match litFalse rest with
        | some r => some (JVal.bool false, r)
        | none => none
      else if c = '-' then (parseNum rest).map (fun p => (JVal.num (-(p.1 : Int)), p.2))
      else (parseNum (c :: rest)).map (fun p => (JVal.num (p.1 : Int), p.2)) := by
  conv_lhs => rw [parseVal.eq_def]

theorem parseMembers_cons (fuel : Nat) (c : Char) (rest : List Char) :
    parseMembers (fuel + 1) (c :: rest) =
      if c = '\x22' then
        match parseStrBody rest with
        | none => none
        | some (k, r1) =>
          match skipWs r1 with
          | [] => none
          | d :: r2 =>
            if d = ':' then
              match parseVal fuel (skipWs r2) with
              | none => none
              | some (v, r3) =>
                match skipWs r3 with
                | [] => none
                | e :: r4 =>
                  if e = ',' then
                    match parseMembers fuel (skipWs r4) with
                    | none => none
                    | some (fs, r5) => some (JFields.cons k v fs, r5)
                  else if e = '\x7d' then some (JFields.cons k v .nil, r4)
                  else none
            else none
      else none := by
  conv_lhs => rw [parseMembers.eq_def]

theorem parseItems_succ (fuel : Nat) (s : List Char) :
    parseItems (fuel + 1) s =
      match parseVal fuel s with
      | none => none
      | some (v, r1) =>
        match skipWs r1 with
        | [] => none
        | d :: r2 =>
          if d = ',' then
            match parseItems fuel (skipWs r2) with
            | none => none
            | some (xs, r3) => some (JItems.cons v xs, r3)
          else if d = ']' then some (JItems.cons v .nil, r2)
          else none := by
  conv_lhs => rw [parseItems.eq_def]

mutual
theorem rt_val : ∀ (v : JVal) (fuel : Nat) (rest : List Char),
    jsonOkV v = true → (encV v).length < fuel → numDelim rest = true →
    parseVal fuel (encV v ++ rest) = some (v, rest)
  | _, 0, _, _, hf, _ => absurd hf (Nat.not_lt_zero _)
  | .str s, fuel + 1, rest, hok, _, _ => by
    have harg : encV (.str s) ++ rest = '\x22' :: (escML s ++ '\x22' :: rest) := by
      rw [show encV (.str s) = '\x22' :: (escML s ++ ['\x22']) from rfl]
      simp [List.append_assoc]
    rw [harg, parseVal_cons, if_pos rfl,
      parseStrBody_escML s rest (by simpa [jsonOkV] using hok)]
    rfl
  | .num n, fuel + 1, rest, _, _, hd => by
    by_cases hn : n < 0
    · have henc : encV (.num n) = '-' :: natChars n.natAbs := by
        rw [show encV (.num n) = encInt n from rfl, encInt, if_pos hn]
      rw [henc, List.cons_append, parseVal_cons]
      rw [if_neg (by decide), if_neg (by decide), if_neg (by decide), if_neg (by decide),
        if_neg (by decide), if_neg (by decide), if_pos rfl,
        parseNum_natChars n.natAbs rest hd]
      simp only [Option.map_some']
      have hval : -((n.natAbs : Int)) = n := by omega
      rw [hval]
    · have henc : encV (.num n) = natChars n.natAbs := by
        rw [show encV (.num n) = encInt n from rfl, encInt, if_neg hn]
      by_cases h0 : n.natAbs = 0
      · rw [henc, h0, show natChars 0 = ['0'] from rfl, List.cons_append, List.nil_append,
          parseVal_cons]
        rw [if_neg (by decide), if_neg (by decide), if_neg (by decide), if_neg (by decide),
          if_neg (by decide), if_neg (by decide), if_neg (by decide)]
        rw [show parseNum ('0' :: rest) = some (0, rest) from by simp [parseNum]]
        simp only [Option.map_some']
        have hval : ((0 : Nat) : Int) = n := by omega
        rw [hval]
      · obtain ⟨d, ds, heq, hdig, hne⟩ := natChars_head n.natAbs h0
        obtain ⟨hws, hq, hbc, hbk, hn', ht', hf', hm', _, _, _⟩ := digit_head_facts d hdig
        rw [henc, heq, List.cons_append, parseVal_cons]
        rw [if_neg hq, if_neg hbc, if_neg hbk, if_neg hn', if_neg ht', if_neg hf', if_neg hm']
        rw [← List.cons_append, ← heq, parseNum_natChars n.natAbs rest hd]
        simp only [Option.map_some']
        have hval : ((n.natAbs : Int)) = n := by omega
        rw [hval]
  | .bool true, fuel + 1, rest, _, _, _ => by
    rw [show encV (.bool true) ++ rest = 't' :: 'r' :: 'u' :: 'e' :: rest from rfl, parseVal_cons]
    rw [if_neg (by decide), if_neg (by decide), if_neg (by decide), if_neg (by decide),
      if_pos rfl]
    simp only [show litTrue ('r' :: 'u' :: 'e' :: rest) = some rest from rfl]
  | .bool false, fuel + 1, rest, _, _, _ => by
    rw [show encV (.bool false) ++ rest = 'f' :: 'a' :: 'l' :: 's' :: 'e' :: rest from rfl,
      parseVal_cons]
    rw [if_neg (by decide), if_neg (by decide), if_neg (by decide), if_neg (by decide),
      if_neg (by decide), if_pos rfl]
    simp only [show litFalse ('a' :: 'l' :: 's' :: 'e' :: rest) = some rest from rfl]
  | .null, fuel + 1, rest, _, _, _ => by
    rw [show encV .null ++ rest = 'n' :: 'u' :: 'l' :: 'l' :: rest from rfl, parseVal_cons]
    rw [if_neg (by decide), if_neg (by decide), if_neg (by decide), if_pos rfl]
    simp only [show litNull ('u' :: 'l' :: 'l' :: rest) = some rest from rfl]
  | .arr .nil, fuel + 1, rest, _, _, _ => by
    rw [show encV (.arr .nil) ++ rest = '[' :: ']' :: rest from rfl, parseVal_cons]
    rw [if_neg (by decide), if_neg (by decide), if_pos rfl]
    rw [skipWs_not_ws ']' rest (by decide)]
    simp
  | .arr (.cons x xs), fuel + 1, rest, hok, hf, _ => by
    have hok' : jsonOkV x = true ∧ jsonOkItems xs = true := by
      have hitems : jsonOkItems (JItems.cons x xs) = true := by simpa [jsonOkV] using hok
      rw [jsonOkItems, Bool.and_eq_true] at hitems
      exact hitems
    have hlen : (encItems (JItems.cons x xs)).length + 1 < fuel := by
      rw [show encV (.arr (.cons x xs))
          = '[' :: (encItems (JItems.cons x xs) ++ [']']) from rfl] at hf
      simp only [List.length_cons, List.length_append, List.length_singleton] at hf
      omega
    have key := rt_items x xs fuel rest hok'.1 hok'.2 hlen
    have harg : encV (.arr (.cons x xs)) ++ rest
        = '[' :: (encItems (JItems.cons x xs) ++ ']' :: rest) := by
      rw [show encV (.arr (.cons x xs))
          = '[' :: (encItems (JItems.cons x xs) ++ [']']) from rfl]
      simp [List.append_assoc]
    rw [harg, parseVal_cons, if_neg (by decide), if_neg (by decide), if_pos rfl]
    obtain ⟨c, t2, hdec, hws, hbr, _, _⟩ := encItems_decomp x xs
    rw [hdec (']' :: rest), skipWs_not_ws c _ hws]
    simp only []
    rw [if_neg hbr, ← hdec (']' :: rest), key]
  | .obj .nil, fuel + 1, rest, _, _, _ => by
    rw [show encV (.obj .nil) ++ rest = '\x7b' :: '\x7d' :: rest from rfl, parseVal_cons]
    rw [if_neg (by decide), if_pos rfl]
    rw [skipWs_not_ws '\x7d' rest (by decide)]
    simp
  | .obj (.cons k v kvs), fuel + 1, rest, hok, hf, _ => by
    have hok' : printableStr k = true ∧ jsonOkV v = true ∧ jsonOkFields kvs = true := by
      have hfields : jsonOkFields (JFields.cons k v kvs) = true := by simpa [jsonOkV] using hok
      rw [jsonOkFields, Bool.and_eq_true, Bool.and_eq_true, Bool.and_eq_true] at hfields
      exact ⟨hfields.1.1.1, hfields.1.2, hfields.2⟩
    have hdistinct : keysDistinct (JFields.cons k v kvs) = true :=
      jsonOkFields_distinct _ (by simpa [jsonOkV] using hok)
    have hlen : (encFields (JFields.cons k v kvs)).length + 1 < fuel := by
      rw [show encV (.obj (.cons k v kvs))
          = '\x7b' :: (encFields (JFields.cons k v kvs) ++ ['\x7d']) from rfl] at hf
      simp only [List.length_cons, List.length_append, List.length_singleton] at hf
      omega
    have key := rt_fields k v kvs fuel rest hok'.1 hok'.2.1 hok'.2.2 hlen
    have harg : encV (.obj (.cons k v kvs)) ++ rest
        = '\x7b' :: (encFields (JFields.cons k v kvs) ++ '\x7d' :: rest) := by
      rw [show encV (.obj (.cons k v kvs))
          = '\x7b' :: (encFields (JFields.cons k v kvs) ++ ['\x7d']) from rfl]
      simp [List.append_assoc]
    rw [harg, parseVal_cons, if_neg (by decide), if_pos rfl]
    have hfirst : ∃ t2, encFields (JFields.cons k v kvs) ++ '\x7d' :: rest = '\x22' :: t2 := by
      cases kvs with
      | nil =>
        exact ⟨(escML k ++ '\x22' :: ':' :: encV v) ++ '\x7d' :: rest, by
          rw [encFields_single]; simp⟩
      | cons k2 v2 kvs2 =>
        exact ⟨((escML k ++ '\x22' :: ':' :: encV v)
            ++ ',' :: encFields (JFields.cons k2 v2 kvs2)) ++ '\x7d' :: rest, by
          rw [encFields_cons2]; simp⟩
    obtain ⟨t2, hfirst⟩ := hfirst
    rw [hfirst, skipWs_not_ws '\x22' _ (by decide)]
    simp only []
    rw [if_neg (by decide), ← hfirst, key]
    simp only []
    rw [mkDict_distinct _ hdistinct]
  termination_by v _ _ _ _ _ => sizeOf v
theorem rt_items : ∀ (x : JVal) (xs : JItems) (fuel : Nat) (rest : List Char),
    jsonOkV x = true → jsonOkItems xs = true →
    (encItems (JItems.cons x xs)).length + 1 < fuel →
    parseItems fuel (encItems (JItems.cons x xs) ++ ']' :: rest) = some (JItems.cons x xs, rest)
  | _, _, 0, _, _, _, hf => absurd hf (Nat.not_lt_zero _)
  | x, .nil, fuel + 1, rest, hokx, _, hf => by
    have hfx : (encV x).length < fuel := by
      rw [encItems_single] at hf
      omega
    have hv := rt_val x fuel (']' :: rest) hokx hfx (numDelim_bracket rest)
    rw [encItems_single, parseItems_succ, hv]
    simp only []
    rw [skipWs_not_ws ']' rest (by decide)]
    simp
  | x, .cons y ys, fuel + 1, rest, hokx, hoktail, hf => by
    rw [jsonOkItems, Bool.and_eq_true] at hoktail
    rw [encItems_cons2] at hf ⊢
    simp only [List.length_append, List.length_cons] at hf
    have hfx : (encV x).length < fuel := by omega
    have hftail : (encItems (JItems.cons y ys)).length + 1 < fuel := by omega
    have hv := rt_val x fuel (',' :: (encItems (JItems.cons y ys) ++ ']' :: rest)) hokx hfx
      (numDelim_comma _)
    have key := rt_items y ys fuel rest hoktail.1 hoktail.2 hftail
    have harg : encV x ++ ',' :: encItems (JItems.cons y ys) ++ ']' :: rest
        = encV x ++ (',' :: (encItems (JItems.cons y ys) ++ ']' :: rest)) := by
      simp [List.append_assoc]
    rw [harg, parseItems_succ, hv]
    simp only []
    rw [skipWs_not_ws ',' _ (by decide)]
    simp only []
    rw [if_pos trivial, skipWs_encItems, key]
  termination_by x xs _ _ _ _ _ => sizeOf x + sizeOf xs
theorem rt_fields : ∀ (k : List Char) (v : JVal) (kvs : JFields) (fuel : Nat) (rest : List Char),
    printableStr k = true → jsonOkV v = true → jsonOkFields kvs = true →
    (encFields (JFields.cons k v kvs)).length + 1 < fuel →
    parseMembers fuel (encFields (JFields.cons k v kvs) ++ '\x7d' :: rest)
      = some (JFields.cons k v kvs, rest)
  | _, _, _, 0, _, _, _, _, hf => absurd hf (Nat.not_lt_zero _)
  | k, v, .nil, fuel + 1, rest, hk, hv, _, hf => by
    rw [encFields_single] at hf ⊢
    simp only [List.length_cons, List.length_append] at hf
    have hfv : (encV v).length < fuel := by omega
    have hval := rt_val v fuel ('\x7d' :: rest) hv hfv (numDelim_brace rest)
    have harg : ('\x22' :: (escML k ++ '\x22' :: ':' :: encV v)) ++ '\x7d' :: rest
        = '\x22' :: (escML k ++ '\x22' :: (':' :: (encV v ++ '\x7d' :: rest))) := by
      simp [List.append_assoc]
    rw [harg, parseMembers_cons, if_pos rfl, parseStrBody_escML k _ hk]
    simp only []
    rw [skipWs_not_ws ':' _ (by decide)]
    simp only []
    rw [if_pos trivial, skipWs_encV, hval]
    simp only []
    rw [skipWs_not_ws '\x7d' rest (by decide)]
    simp
  | k, v, .cons k2 v2 kvs2, fuel + 1, rest, hk, hv, hoktail, hf => by
    rw [jsonOkFields, Bool.and_eq_true, Bool.and_eq_true, Bool.and_eq_true] at hoktail
    rw [encFields_cons2] at hf ⊢
    simp only [List.length_append, List.length_cons] at hf
    have hfv : (encV v).length < fuel := by omega
    have hftail : (encFields (JFields.cons k2 v2 kvs2)).length + 1 < fuel := by omega
    have hval := rt_val v fuel (',' :: (encFields (JFields.cons k2 v2 kvs2) ++ '\x7d' :: rest))
      hv hfv (numDelim_comma _)
    have key := rt_fields k2 v2 kvs2 fuel rest hoktail.1.1.1 hoktail.1.2 hoktail.2 hftail
    have harg : ('\x22' :: (escML k ++ '\x22' :: ':' :: encV v))
          ++ ',' :: encFields (JFields.cons k2 v2 kvs2) ++ '\x7d' :: rest
        = '\x22' :: (escML k ++ '\x22' :: (':' :: (encV v
          ++ ',' :: (encFields (JFields.cons k2 v2 kvs2) ++ '\x7d' :: rest)))) := by
      simp [List.append_assoc]
    rw [harg, parseMembers_cons, if_pos rfl, parseStrBody_escML k _ hk]
    simp only []
    rw [skipWs_not_ws ':' _ (by decide)]
    simp only []
    rw [if_pos trivial, skipWs_encV, hval]
    simp only []
    rw [skipWs_not_ws ',' _ (by decide)]
    simp only []
    rw [if_pos trivial, skipWs_encFields, key]
  termination_by k v kvs _ _ _ _ _ _ => sizeOf v + sizeOf kvs
end

/-! ## `json_loads` inverts the canonical rendering -/

theorem json_loads_encV (v : JVal) (hok : jsonOkV v = true) :
    json_loads (encV v) = some v := by
  have h := rt_val v ((encV v).length + 1) [] hok (by omega) rfl
  rw [List.append_nil] at h
  have hs : skipWs (encV v) = encV v := by
    have := skipWs_encV v []
    simpa using this
  rw [json_loads, hs, h]
  rfl

/-! ## The sanitizer on rendered values: protect distributes over `encV` -/

theorem protectGo_nil (f : Nat) : protectGo f [] = [] := by
  cases f <;> rfl

theorem protectGo_succ_cons (fuel : Nat) (c : Char) (rest : List Char) :
    protectGo (fuel + 1) (c :: rest) =
      if c = '\x22' then
        match scanLiteral rest with
        | some (content, after) =>
          replace_newlines ('\x22' :: content ++ ['\x22']) ++ protectGo fuel after
        | none => c :: protectGo fuel rest
      else c :: protectGo fuel rest := by
  conv_lhs => rw [protectGo.eq_def]

theorem protectGo_irrel : ∀ f s, s.length ≤ f → ∀ g, s.length ≤ g →
    protectGo f s = protectGo g s := by
  intro f
  induction f with
  | zero =>
    intro s hs g _
    have : s = [] := by cases s with | nil => rfl | cons _ _ => simp at hs
    subst this
    rw [protectGo_nil, protectGo_nil]
  | succ f ih =>
    intro s hs g hg
    cases s with
    | nil => rw [protectGo_nil, protectGo_nil]
    | cons c rest =>
      cases g with
      | zero => simp at hg
      | succ g' =>
        rw [protectGo_succ_cons, protectGo_succ_cons]
        by_cases hq : c = '\x22'
        · rw [if_pos hq, if_pos hq]
          cases hscan : scanLiteral rest with
          | none =>
            simp only []
            simp only [List.length_cons] at hs hg
            rw [ih rest (by omega) g' (by omega)]
          | some p =>
            obtain ⟨content, after⟩ := p
            simp only []
            have hlt := scanLiteral_shrink rest content after hscan
            simp only [List.length_cons] at hs hg
            rw [ih after (by omega) g' (by omega)]
        · rw [if_neg hq, if_neg hq]
          simp only [List.length_cons] at hs hg
          rw [ih rest (by omega) g' (by omega)]

theorem protect_cons_nq (c : Char) (s : List Char) (hc : ¬ c = '\x22') :
    protect (c :: s) = c :: protect s := by
  rw [protect, List.length_cons, protectGo_succ_cons, if_neg hc, protect]

theorem protect_quote (rest content after : List Char)
    (h : scanLiteral rest = some (content, after)) :
    protect ('\x22' :: rest) =
      replace_newlines ('\x22' :: content ++ ['\x22']) ++ protect after := by
  rw [protect, List.length_cons, protectGo_succ_cons, if_pos rfl, h]
  simp only []
  have hlt := scanLiteral_shrink rest content after h
  rw [protectGo_irrel rest.length after (by omega) after.length (le_refl _)]
  rfl

theorem scanLiteral_escML : ∀ s b, scanLiteral (escML s ++ '\x22' :: b) = some (escML s, b)
  | [], b => by
    rw [escML]
    simp only [List.nil_append]
    rw [scanLiteral_cons, if_pos rfl]
  | c :: rest, b => by
    rw [escML_cons]
    by_cases h1 : c = '\x22'
    · rw [if_pos h1, List.cons_append, List.cons_append, scanLiteral_cons,
        if_neg (by decide), if_pos rfl]
      simp only []
      rw [if_neg (by decide), scanLiteral_escML rest b]
      rfl
    · rw [if_neg h1]
      by_cases h2 : c = '\\'
      · rw [if_pos h2, List.cons_append, List.cons_append, scanLiteral_cons,
          if_neg (by decide), if_pos rfl]
        simp only []
        rw [if_neg (by decide), scanLiteral_escML rest b]
        rfl
      · rw [if_neg h2, List.cons_append, scanLiteral_cons, if_neg h1, if_neg h2,
          scanLiteral_escML rest b]
        rfl

theorem escML_append : ∀ a b, escML (a ++ b) = escML a ++ escML b := by
  intro a b
  induction a with
  | nil => rfl
  | cons c rest ih =>
    rw [List.cons_append, escML_cons, escML_cons]
    by_cases h1 : c = '\x22'
    · simp [h1, ih]
    · by_cases h2 : c = '\\' <;> simp [h1, h2, ih]

theorem escML_placeholder : escML placeholder = placeholder := rfl

/-- Head-is-newline test used to steer the lookbehind argument. -/
def headNL : List Char → Bool
  | [] => false
  | c :: _ => c = '\n'

theorem replaceNLGo_cons (prev : Option Char) (c : Char) (rest : List Char) :
    replaceNLGo prev (c :: rest) =
      if c = '\n' ∧ prev ≠ some '\\' then placeholder ++ replaceNLGo (some c) rest
      else c :: replaceNLGo (some c) rest := rfl

theorem noBSNL_cons2 (c1 c2 : Char) (r : List Char) :
    noBSNL (c1 :: c2 :: r) = (!(c1 = '\\' && c2 = '\n') && noBSNL (c2 :: r)) := rfl

theorem noBSNL_tail : ∀ (c : Char) (rest : List Char), noBSNL (c :: rest) = true →
    noBSNL rest = true := by
  intro c rest h
  cases rest with
  | nil => rfl
  | cons d r =>
    rw [noBSNL_cons2] at h
    simp only [Bool.and_eq_true] at h
    exact h.2

theorem replaceNLGo_escML : ∀ (s : List Char) (prev : Option Char), noBSNL s = true →
    (prev ≠ some '\\' ∨ headNL s = false) →
    replaceNLGo prev (escML s ++ ['\x22']) = escML (protectStr s) ++ ['\x22']
  | [], prev, _, _ => by
    rw [escML]
    simp only [List.nil_append]
    rw [replaceNLGo_cons, if_neg (by simp)]
    rfl
  | c :: rest, prev, hno, hcond => by
    have hnr : noBSNL rest = true := noBSNL_tail c rest hno
    rw [escML_cons]
    by_cases h1 : c = '\x22'
    · subst h1
      rw [if_pos rfl, List.cons_append, List.cons_append,
        replaceNLGo_cons, if_neg (by simp), replaceNLGo_cons, if_neg (by simp),
        replaceNLGo_escML rest (some '\x22') hnr (Or.inl (by simp))]
      rw [protectStr_cons, if_neg (by decide)]
      simp only [List.singleton_append]
      rw [escML_cons, if_pos rfl]
      simp
    · rw [if_neg h1]
      by_cases h2 : c = '\\'
      · subst h2
        have hhead : headNL rest = false := by
          cases rest with
          | nil => rfl
          | cons d r =>
            rw [noBSNL_cons2] at hno
            simp only [Bool.and_eq_true] at hno
            have h3 := hno.1
            simp only [decide_eq_true_eq] at h3 ⊢
            simp only [headNL]
            simp at h3
            simp [h3]
        rw [if_pos rfl, List.cons_append, List.cons_append,
          replaceNLGo_cons, if_neg (by simp), replaceNLGo_cons, if_neg (by simp),
          replaceNLGo_escML rest (some '\\') hnr (Or.inr hhead)]
        rw [protectStr_cons, if_neg (by decide)]
        simp only [List.singleton_append]
        rw [escML_cons, if_neg (by decide), if_pos rfl]
        simp
      · rw [if_neg h2, List.cons_append]
        by_cases hc : c = '\n'
        · subst hc
          have hp : prev ≠ some '\\' := by
            rcases hcond with h | h
            · exact h
            · rw [headNL] at h
              simp at h
          rw [replaceNLGo_cons, if_pos ⟨rfl, hp⟩,
            replaceNLGo_escML rest (some '\n') hnr (Or.inl (by simp))]
          rw [protectStr_cons, if_pos rfl, escML_append, escML_placeholder]
          simp
        · rw [replaceNLGo_cons, if_neg (by simp [hc]),
            replaceNLGo_escML rest (some c) hnr (Or.inl (by simp [h2]))]
          rw [protectStr_cons, if_neg hc]
          simp only [List.singleton_append]
          rw [escML_cons, if_neg h1, if_neg h2]
          simp

theorem replace_newlines_lit (s : List Char) (h : noBSNL s = true) :
    replace_newlines ('\x22' :: (escML s ++ ['\x22'])) =
      '\x22' :: (escML (protectStr s) ++ ['\x22']) := by
  rw [replace_newlines, replaceNLGo_cons, if_neg (by simp),
    replaceNLGo_escML s (some '\x22') h (Or.inl (by simp))]

theorem digits_no_quote (s : List Char) (h : s.all isDigitCh = true) :
    s.all (fun c => !(c = '\x22')) = true := by
  rw [List.all_eq_true] at h ⊢
  intro c hc
  have hd := h c hc
  rw [isDigitCh] at hd
  simp only [Bool.and_eq_true, decide_eq_true_eq] at hd
  simp only [Bool.not_eq_true', decide_eq_false_iff_not]
  intro he
  subst he
  exact absurd hd.1 (by decide)

theorem encInt_no_quote (n : Int) : (encInt n).all (fun c => !(c = '\x22')) = true := by
  rw [encInt]
  by_cases h : n < 0
  · rw [if_pos h, List.all_cons]
    simp only [Bool.and_eq_true]
    exact ⟨by decide, digits_no_quote _ (natChars_all_digits _)⟩
  · rw [if_neg h]
    exact digits_no_quote _ (natChars_all_digits _)

theorem protect_append_nq : ∀ A rest, A.all (fun c => !(c = '\x22')) = true →
    protect (A ++ rest) = A ++ protect rest := by
  intro A
  induction A with
  | nil => intro rest _; rfl
  | cons c t ih =>
    intro rest h
    simp only [List.all_cons, Bool.and_eq_true] at h
    rw [List.cons_append, protect_cons_nq c _ (by simpa using h.1), ih rest h.2]
    rfl

theorem protectStr_id (s : List Char) (h : printableStr s = true) : protectStr s = s := by
  induction s with
  | nil => rfl
  | cons c rest ih =>
    rw [printableStr, List.all_cons, Bool.and_eq_true] at h
    have hc : ¬ c = '\n' := by
      intro he
      subst he
      exact absurd h.1 (by decide)
    rw [protectStr_cons, if_neg hc, List.singleton_append, ih h.2]

theorem noBSNL_of_printable : ∀ s, printableStr s = true → noBSNL s = true := by
  intro s
  induction s with
  | nil => intro _; rfl
  | cons c rest ih =>
    intro h
    rw [printableStr, List.all_cons, Bool.and_eq_true] at h
    cases rest with
    | nil => rfl
    | cons d r =>
      rw [noBSNL_cons2]
      simp only [Bool.and_eq_true]
      refine ⟨?_, ih h.2⟩
      have hd : decide (0x20 ≤ d.toNat) = true := by
        have h2 := h.2
        rw [List.all_cons, Bool.and_eq_true] at h2
        exact h2.1
      simp only [decide_eq_true_eq] at hd
      simp only [Bool.not_eq_true', Bool.and_eq_false_iff, decide_eq_false_iff_not]
      right
      intro he
      subst he
      exact absurd hd (by decide)

theorem goodFields_cons (k : List Char) (v : JVal) (kvs : JFields) :
    goodFields (JFields.cons k v kvs)
      = (printableStr k && !hasKey kvs k && goodV v && goodFields kvs) := rfl

mutual
/-- Protection distributes over the rendering: on a good tree the phase-1
scan rewrites exactly the string literals, yielding the rendering of the
protected tree. -/
theorem pdV : ∀ (v : JVal) (rest : List Char), goodV v = true →
    protect (encV v ++ rest) = encV (protectVal v) ++ protect rest
  | .str s, rest, h => by
    simp only [goodV, goodStr, Bool.and_eq_true] at h
    have harr : encV (JVal.str s) ++ rest = '\x22' :: (escML s ++ '\x22' :: rest) := by
      simp [encV]
    rw [harr, protect_quote _ _ _ (scanLiteral_escML s rest)]
    simp only [List.cons_append]
    rw [replace_newlines_lit s h.1.2]
    simp [encV, protectVal]
  | .num n, rest, _ => by
    rw [show protectVal (JVal.num n) = JVal.num n from rfl]
    exact protect_append_nq _ _ (encInt_no_quote n)
  | .bool b, rest, _ => by
    rw [show protectVal (JVal.bool b) = JVal.bool b from rfl]
    cases b
    · exact protect_append_nq _ _ (by decide)
    · exact protect_append_nq _ _ (by decide)
  | .null, rest, _ => by
    rw [show protectVal JVal.null = JVal.null from rfl]
    exact protect_append_nq _ _ (by decide)
  | .arr xs, rest, h => by
    cases xs with
    | nil =>
      rw [show protectVal (JVal.arr .nil) = JVal.arr .nil from rfl]
      exact protect_append_nq _ _ (by decide)
    | cons x xs' =>
      have harr : encV (JVal.arr (JItems.cons x xs')) ++ rest
          = '[' :: (encItems (JItems.cons x xs') ++ ']' :: rest) := by
        simp [encV]
      rw [harr, protect_cons_nq '[' _ (by decide),
        pdItems (JItems.cons x xs') (']' :: rest) (by simpa [goodV] using h),
        protect_cons_nq ']' _ (by decide)]
      simp [encV, protectVal]
  | .obj kvs, rest, h => by
    cases kvs with
    | nil =>
      rw [show protectVal (JVal.obj .nil) = JVal.obj .nil from rfl]
      exact protect_append_nq _ _ (by decide)
    | cons k v kvs' =>
      have harr : encV (JVal.obj (JFields.cons k v kvs')) ++ rest
          = '\x7b' :: (encFields (JFields.cons k v kvs') ++ '\x7d' :: rest) := by
        simp [encV]
      rw [harr, protect_cons_nq '\x7b' _ (by decide),
        pdFields k v kvs' ('\x7d' :: rest) (by simpa [goodV] using h),
        protect_cons_nq '\x7d' _ (by decide)]
      simp [encV, protectVal]
  termination_by v _ _ => sizeOf v
theorem pdItems : ∀ (xs : JItems) (rest : List Char), goodItems xs = true →
    protect (encItems xs ++ rest) = encItems (protectItemsV xs) ++ protect rest
  | .nil, rest, _ => by simp [encItems, protectItemsV]
  | .cons x .nil, rest, h => by
    have hx : goodV x = true := by
      simp only [goodItems, Bool.and_eq_true] at h
      exact h.1
    rw [encItems_single, pdV x rest hx,
      show protectItemsV (JItems.cons x .nil) = JItems.cons (protectVal x) .nil from rfl,
      encItems_single]
  | .cons x (JItems.cons y ys), rest, h => by
    simp only [goodItems, Bool.and_eq_true] at h
    have harr : encItems (JItems.cons x (JItems.cons y ys)) ++ rest
        = encV x ++ (',' :: (encItems (JItems.cons y ys) ++ rest)) := by
      rw [encItems_cons2]
      simp
    rw [harr, pdV x _ h.1, protect_cons_nq ',' _ (by decide),
      pdItems (JItems.cons y ys) rest (by simp [goodItems, h.2.1, h.2.2])]
    simp [protectItemsV, encItems_cons2]
  termination_by xs _ _ => sizeOf xs
theorem pdFields : ∀ (k : List Char) (v : JVal) (kvs : JFields) (rest : List Char),
    goodFields (JFields.cons k v kvs) = true →
    protect (encFields (JFields.cons k v kvs) ++ rest)
      = encFields (protectFieldsV (JFields.cons k v kvs)) ++ protect rest
  | k, v, .nil, rest, h => by
    rw [goodFields_cons] at h
    simp only [Bool.and_eq_true] at h
    obtain ⟨⟨⟨hk, _⟩, hv⟩, _⟩ := h
    have harr : encFields (JFields.cons k v .nil) ++ rest
        = '\x22' :: (escML k ++ '\x22' :: (':' :: (encV v ++ rest))) := by
      rw [encFields_single]
      simp
    rw [harr, protect_quote _ _ _ (scanLiteral_escML k (':' :: (encV v ++ rest)))]
    simp only [List.cons_append]
    rw [replace_newlines_lit k (noBSNL_of_printable k hk), protectStr_id k hk,
      protect_cons_nq ':' _ (by decide), pdV v rest hv]
    simp [protectFieldsV, encFields_single]
  | k, v, .cons k2 v2 kvs', rest, h => by
    rw [goodFields_cons] at h
    simp only [Bool.and_eq_true] at h
    obtain ⟨⟨⟨hk, _⟩, hv⟩, hrest⟩ := h
    have harr : encFields (JFields.cons k v (JFields.cons k2 v2 kvs')) ++ rest
        = '\x22' :: (escML k ++ '\x22' ::
            (':' :: (encV v ++ (',' :: (encFields (JFields.cons k2 v2 kvs') ++ rest))))) := by
      rw [encFields_cons2]
      simp
    rw [harr, protect_quote _ _ _ (scanLiteral_escML k _)]
    simp only [List.cons_append]
    rw [replace_newlines_lit k (noBSNL_of_printable k hk), protectStr_id k hk,
      protect_cons_nq ':' _ (by decide),
      pdV v _ hv,
      protect_cons_nq ',' _ (by decide),
      pdFields k2 v2 kvs' rest hrest]
    simp [protectFieldsV, encFields_cons2]
  termination_by k v kvs _ _ => sizeOf v + sizeOf kvs
end

/-! ## Protected trees are in the parser-friendly fragment -/

theorem hasKey_protectFieldsV : ∀ (kvs : JFields) (k : List Char),
    hasKey (protectFieldsV kvs) k = hasKey kvs k := by
  intro kvs
  induction kvs using fieldsIndOn with
  | hnil => intro k; rfl
  | hcons k0 v rest ih =>
    intro k
    simp [protectFieldsV, hasKey, ih]

theorem protectStr_printable : ∀ s, strCharsOk s = true → printableStr (protectStr s) = true := by
  intro s
  induction s with
  | nil => intro _; rfl
  | cons c rest ih =>
    intro h
    rw [strCharsOk, List.all_cons, Bool.and_eq_true] at h
    rw [protectStr_cons]
    by_cases hc : c = '\n'
    · rw [if_pos hc, printableStr, List.all_append]
      simp only [Bool.and_eq_true]
      exact ⟨by decide, ih h.2⟩
    · rw [if_neg hc]
      simp only [List.singleton_append, printableStr, List.all_cons, Bool.and_eq_true]
      refine ⟨?_, ih h.2⟩
      have h1 := h.1
      simp only [Bool.or_eq_true, decide_eq_true_eq] at h1
      rcases h1 with h1 | h1
      · exact absurd h1 hc
      · simp [h1]

mutual
/-- Protecting a good tree lands in the printable fragment the parser
round-trip covers. -/
theorem jsonOk_protectV : ∀ v, goodV v = true → jsonOkV (protectVal v) = true
  | .str s, h => by
    simp only [goodV, goodStr, Bool.and_eq_true] at h
    simpa [protectVal, jsonOkV] using protectStr_printable s h.1.1
  | .num _, _ => rfl
  | .bool _, _ => rfl
  | .null, _ => rfl
  | .arr xs, h => by
    simpa [protectVal, jsonOkV] using jsonOk_protectItems xs (by simpa [goodV] using h)
  | .obj kvs, h => by
    simpa [protectVal, jsonOkV] using jsonOk_protectFields kvs (by simpa [goodV] using h)
theorem jsonOk_protectItems : ∀ xs, goodItems xs = true → jsonOkItems (protectItemsV xs) = true
  | .nil, _ => rfl
  | .cons x xs, h => by
    simp only [goodItems, Bool.and_eq_true] at h
    simp only [protectItemsV, jsonOkItems, Bool.and_eq_true]
    exact ⟨jsonOk_protectV x h.1, jsonOk_protectItems xs h.2⟩
theorem jsonOk_protectFields : ∀ kvs, goodFields kvs = true → jsonOkFields (protectFieldsV kvs) = true
  | .nil, _ => rfl
  | .cons k v kvs, h => by
    rw [goodFields_cons] at h
    simp only [Bool.and_eq_true] at h
    obtain ⟨⟨⟨hk, hnk⟩, hv⟩, hrest⟩ := h
    simp only [protectFieldsV, jsonOkFields, Bool.and_eq_true]
    refine ⟨⟨⟨hk, ?_⟩, jsonOk_protectV v hv⟩, jsonOk_protectFields kvs hrest⟩
    rw [hasKey_protectFieldsV]
    exact hnk
end

/-! ## Restoration undoes protection on good trees -/

mutual
theorem restore_protectV : ∀ v, goodV v = true → restore_newlines (protectVal v) = v
  | .str s, h => by
    simp only [goodV, goodStr, Bool.and_eq_true] at h
    have hr := restoreStr_protectStr s (by simpa using h.2)
    simp [protectVal, restore_newlines, hr]
  | .num _, _ => rfl
  | .bool _, _ => rfl
  | .null, _ => rfl
  | .arr xs, h => by
    simp [protectVal, restore_newlines, restore_protectItems xs (by simpa [goodV] using h)]
  | .obj kvs, h => by
    simp [protectVal, restore_newlines, restore_protectFields kvs (by simpa [goodV] using h)]
theorem restore_protectItems : ∀ xs, goodItems xs = true → restoreItems (protectItemsV xs) = xs
  | .nil, _ => rfl
  | .cons x xs, h => by
    simp only [goodItems, Bool.and_eq_true] at h
    simp [protectItemsV, restoreItems, restore_protectV x h.1, restore_protectItems xs h.2]
theorem restore_protectFields : ∀ kvs, goodFields kvs = true →
    restoreFields (protectFieldsV kvs) = kvs
  | .nil, _ => rfl
  | .cons k v kvs, h => by
    rw [goodFields_cons] at h
    simp only [Bool.and_eq_true] at h
    simp [protectFieldsV, restoreFields, restore_protectV v h.1.2, restore_protectFields kvs h.2]
end

/-! ## Renderings of protected trees survive control stripping -/

theorem stripControl_id (t : List Char) (h : printableStr t = true) : stripControl t = t := by
  induction t with
  | nil => rfl
  | cons c rest ih =>
    rw [printableStr, List.all_cons, Bool.and_eq_true] at h
    have hc : isStrippedCtrl c = false := by
      have h1 := h.1
      simp only [decide_eq_true_eq] at h1
      rw [isStrippedCtrl]
      simp only [Bool.or_eq_false_iff, Bool.and_eq_false_iff, decide_eq_false_iff_not]
      constructor
      · omega
      · right
        omega
    have ht := ih h.2
    rw [stripControl] at ht
    rw [stripControl, List.map_cons, hc]
    simp [ht]

theorem escML_all (p : Char → Bool) (hq : p '\x22' = true) (hb : p '\\' = true) :
    ∀ s, s.all p = true → (escML s).all p = true := by
  intro s
  induction s with
  | nil => intro _; rfl
  | cons c rest ih =>
    intro h
    rw [List.all_cons, Bool.and_eq_true] at h
    rw [escML_cons]
    by_cases h1 : c = '\x22'
    · rw [if_pos h1]
      simp [List.all_cons, hq, hb, ih h.2]
    · by_cases h2 : c = '\\'
      · rw [if_neg h1, if_pos h2]
        simp [List.all_cons, hq, hb, ih h.2]
      · rw [if_neg h1, if_neg h2]
        simp [List.all_cons, h.1, ih h.2]

theorem digits_printable (s : List Char) (h : s.all isDigitCh = true) :
    printableStr s = true := by
  rw [printableStr, List.all_eq_true]
  rw [List.all_eq_true] at h
  intro c hc
  have hd := h c hc
  rw [isDigitCh] at hd
  simp only [Bool.and_eq_true, decide_eq_true_eq] at hd
  simp only [decide_eq_true_eq]
  omega

theorem encInt_printable (n : Int) : printableStr (encInt n) = true := by
  rw [encInt]
  by_cases h : n < 0
  · rw [if_pos h]
    have hd := digits_printable _ (natChars_all_digits n.natAbs)
    rw [printableStr] at hd ⊢
    simp [hd]
  · rw [if_neg h]
    exact digits_printable _ (natChars_all_digits _)

theorem jsonOkFields_cons (k : List Char) (v : JVal) (kvs : JFields) :
    jsonOkFields (JFields.cons k v kvs)
      = (printableStr k && !hasKey kvs k && jsonOkV v && jsonOkFields kvs) := rfl

mutual
/-- The rendering of a tree in the printable fragment is itself printable
(so control stripping leaves it untouched). -/
theorem encV_printable : ∀ w, jsonOkV w = true → printableStr (encV w) = true
  | .str s, h => by
    rw [show encV (JVal.str s) = '\x22' :: (escML s ++ ['\x22']) from rfl,
      printableStr, List.all_cons, List.all_append]
    simp only [Bool.and_eq_true]
    exact ⟨by decide, escML_all _ (by decide) (by decide) s h, by decide⟩
  | .num n, _ => encInt_printable n
  | .bool true, _ => by decide
  | .bool false, _ => by decide
  | .null, _ => by decide
  | .arr xs, h => by
    rw [show encV (JVal.arr xs) = '[' :: (encItems xs ++ [']']) from rfl,
      printableStr, List.all_cons, List.all_append]
    simp only [Bool.and_eq_true]
    exact ⟨by decide, encItems_printable xs (by simpa [jsonOkV] using h), by decide⟩
  | .obj kvs, h => by
    rw [show encV (JVal.obj kvs) = '\x7b' :: (encFields kvs ++ ['\x7d']) from rfl,
      printableStr, List.all_cons, List.all_append]
    simp only [Bool.and_eq_true]
    exact ⟨by decide, encFields_printable kvs (by simpa [jsonOkV] using h), by decide⟩
theorem encItems_printable : ∀ xs, jsonOkItems xs = true → printableStr (encItems xs) = true
  | .nil, _ => rfl
  | .cons x .nil, h => by
    rw [encItems_single]
    refine encV_printable x ?_
    simp only [jsonOkItems, Bool.and_eq_true] at h
    exact h.1
  | .cons x (JItems.cons y ys), h => by
    simp only [jsonOkItems, Bool.and_eq_true] at h
    rw [encItems_cons2, printableStr, List.all_append, List.all_cons]
    simp only [Bool.and_eq_true]
    refine ⟨?_, by decide, ?_⟩
    · have := encV_printable x h.1
      rwa [printableStr] at this
    · have := encItems_printable (JItems.cons y ys) (by simp [jsonOkItems, h.2.1, h.2.2])
      rwa [printableStr] at this
theorem encFields_printable : ∀ kvs, jsonOkFields kvs = true →
    printableStr (encFields kvs) = true
  | .nil, _ => rfl
  | .cons k v .nil, h => by
    rw [jsonOkFields_cons] at h
    simp only [Bool.and_eq_true] at h
    obtain ⟨⟨⟨hk, _⟩, hv⟩, _⟩ := h
    rw [encFields_single, printableStr, List.all_cons, List.all_append, List.all_cons,
      List.all_cons]
    simp only [Bool.and_eq_true]
    refine ⟨by decide, ?_, by decide, by decide, ?_⟩
    · have := escML_all (fun c => decide (0x20 ≤ c.toNat)) (by decide) (by decide) k hk
      exact this
    · have := encV_printable v hv
      rwa [printableStr] at this
  | .cons k v (JFields.cons k2 v2 kvs'), h => by
    rw [jsonOkFields_cons] at h
    simp only [Bool.and_eq_true] at h
    obtain ⟨⟨⟨hk, _⟩, hv⟩, hrest⟩ := h
    rw [encFields_cons2, printableStr, List.all_append, List.all_cons, List.all_cons,
      List.all_append, List.all_cons, List.all_cons]
    simp only [Bool.and_eq_true]
    refine ⟨⟨by decide, ?_, by decide, by decide, ?_⟩, by decide, ?_⟩
    · exact escML_all (fun c => decide (0x20 ≤ c.toNat)) (by decide) (by decide) k hk
    · have := encV_printable v hv
      rwa [printableStr] at this
    · have := encFields_printable (JFields.cons k2 v2 kvs') hrest
      rwa [printableStr] at this
end

/-! ## The full sanitize–decode–restore round trip -/

theorem sanitize_encV (v : JVal) (h : goodV v = true) :
    sanitize (encV v) = encV (protectVal v) := by
  rw [sanitize]
  have hp : protect (encV v) = encV (protectVal v) := by
    have hd := pdV v [] h
    simpa [show protect [] = ([] : List Char) from rfl] using hd
  rw [hp, stripControl_id _ (encV_printable _ (jsonOk_protectV v h))]

theorem decodeChain_encV (w : JVal) (h : jsonOkV w = true) :
    decodeChain (encV w) = some w := by
  simp only [decodeChain, json_loads_encV w h]

theorem sanitize_roundtrip (v : JVal) (h : goodV v = true) :
    (decodeChain (sanitize (encV v))).map restore_newlines = some v := by
  rw [sanitize_encV v h, decodeChain_encV _ (jsonOk_protectV v h)]
  simp [restore_protectV v h]

/-! ## Locator lemmas -/

theorem locate_cons (c : Char) (rest : List Char) :
    locate (c :: rest) =
      if c = '\x7b' then
        match (c :: rest).reverse.dropWhile (fun d => !(d = '\x7d')) with
        | [] => none
        | d :: r2 => some (d :: r2).reverse
      else locate rest := by
  conv_lhs => rw [locate.eq_def]

theorem locate_no_brace : ∀ t, t.all (fun c => !(c = '\x7b')) = true → locate t = none := by
  intro t
  induction t with
  | nil => intro _; rfl
  | cons c rest ih =>
    intro h
    rw [List.all_cons, Bool.and_eq_true] at h
    rw [locate_cons, if_neg (by simpa using h.1)]
    exact ih h.2

theorem dropWhile_append_all (p : Char → Bool) : ∀ (a b : List Char), a.all p = true →
    (a ++ b).dropWhile p = b.dropWhile p := by
  intro a b
  induction a with
  | nil => intro _; rfl
  | cons c t ih =>
    intro h
    rw [List.all_cons, Bool.and_eq_true] at h
    rw [List.cons_append, List.dropWhile_cons, h.1]
    simp only [if_true]
    exact ih h.2

theorem locate_block (pre mid post : List Char)
    (hpre : pre.all (fun c => !(c = '\x7b')) = true)
    (hpost : post.all (fun c => !(c = '\x7d')) = true) :
    locate (pre ++ ('\x7b' :: (mid ++ ['\x7d'])) ++ post)
      = some ('\x7b' :: (mid ++ ['\x7d'])) := by
  induction pre with
  | nil =>
    simp only [List.nil_append, List.cons_append]
    rw [locate_cons, if_pos rfl]
    have hrev : ('\x7b' :: ((mid ++ ['\x7d']) ++ post)).reverse.dropWhile
        (fun d => !(d = '\x7d')) = '\x7d' :: (mid.reverse ++ ['\x7b']) := by
      rw [List.reverse_cons, List.reverse_append, List.reverse_append]
      rw [show ['\x7d'].reverse = ['\x7d'] from rfl]
      rw [List.append_assoc, List.append_assoc]
      rw [dropWhile_append_all _ post.reverse _ (by simpa using hpost)]
      rw [List.singleton_append, List.dropWhile_cons]
      simp
    rw [hrev]
    simp only []
    rw [List.reverse_cons, List.reverse_append]
    simp
  | cons c t ih =>
    rw [List.all_cons, Bool.and_eq_true] at hpre
    rw [List.cons_append, List.cons_append, locate_cons, if_neg (by simpa using hpre.1)]
    exact ih hpre.2

/-! ## Annotator lemmas -/

theorem formatCitationsGo_cons (i : Nat) (cit : List Char) (rest : List (List Char))
    (content : List Char) :
    formatCitationsGo i (cit :: rest) content
      = formatCitationsGo (i + 1) rest
          (replaceAll (markerOf i) (linkForm i (citUrl cit)) content) := rfl

theorem formatCitationsGo_untouched : ∀ (cits : List (List Char)) (i : Nat)
    (content : List Char),
    (∀ j, j < cits.length → containsSub (markerOf (i + j)) content = false) →
    formatCitationsGo i cits content = content
  | [], _, _, _ => rfl
  | cit :: rest, i, content, h => by
    have h0 : containsSub (markerOf i) content = false := by
      have := h 0 (by simp)
      rwa [Nat.add_zero] at this
    rw [formatCitationsGo_cons, replaceAll_no_occurrence _ _ content h0]
    refine formatCitationsGo_untouched rest (i + 1) content ?_
    intro j hj
    have := h (j + 1) (by simpa using Nat.succ_lt_succ hj)
    rwa [show i + (j + 1) = i + 1 + j by omega] at this

/-! ## Segment decomposition of annotated texts

A content text is modelled as a concatenation of segments: bracket-marker
tokens `[j]`, bracket-free chunks, and (once substitution passes have run)
inserted link forms.  The sequential substitution loop acts segmentwise on
such texts, which yields the annotator's behavior universally. -/

def c1Good : JVal := JVal.obj (JFields.cons ['a'] (JVal.str ['x', '\n', 'y']) JFields.nil)

def c1Bad : JVal := JVal.obj (JFields.cons ['a'] (JVal.str ['\\', '\n']) JFields.nil)

def c3Tree : JVal := JVal.obj (JFields.cons ['k'] (JVal.str ['u', '\n', 'w']) JFields.nil)

def c4sIn : List Char := "\x7b\\\x22a\\\x22:1\x7d".data

def c4sOut : List Char := "\x7b\x22a\x22:1\x7d".data

def c5NoObj : List Char := "no objects at all".data

def c5Pre : List Char := "prose ".data

def c5Mid : List Char := "a\x7d\x7bb".data

def c5Post : List Char := " trailing".data

def exEnvelope : List Char :=
  "\x7b\x22choices\x22:[\x7b\x22message\x22:\x7b\x22content\x22:\x22\x7b\\\x22explanation\\\x22:\\\x22x\\\x22,\\\x22examples\\\x22:[]\x7d\x22\x7d\x7d]\x7d".data

def exInner : List Char := "\x7b\x22explanation\x22:\x22x\x22,\x22examples\x22:[]\x7d".data

def envVal : JVal :=
  JVal.obj (JFields.cons choicesKey
    (JVal.arr (JItems.cons (JVal.obj (JFields.cons messageKey
      (JVal.obj (JFields.cons contentKey (JVal.str exInner) JFields.nil)) JFields.nil))
      JItems.nil)) JFields.nil)

def c6Bare : List Char := "just prose".data

def c8NoObj : List Char := "no braces here".data

def emptyObjBody : List Char := "\x7b\x7d".data

def c9Good : JVal := JVal.obj (JFields.cons ['b'] (JVal.str ['p', '\n', 'q']) JFields.nil)

def c9Plain : List Char := "plain text".data

def c10Bare : List Char := "I said \x22content\x22: here".data

/-! ## The claims -/

/-- Claim C1 (corrected): the sanitize–decode–restore round trip preserves
every value tree — including literal newlines inside string values — for
well-formed JSON-like texts whose string values consist of printable or
newline characters with no backslash directly before a newline and no
occurrence of the placeholder token, and whose object keys are printable
and distinct.  (Unconditionally over all newline-bearing texts the claim
fails: see the counterexample, where a backslash directly before a string
newline defeats the lookbehind and the decode chain, losing the value.) -/
theorem c1_newline_roundtrip (v : JVal) (h : goodV v = true) :
    (decodeChain (sanitize (encV v))).map restore_newlines = some v :=
  sanitize_roundtrip v h

theorem c1_newline_roundtrip_witness :
    goodV c1Good = true ∧
      (decodeChain (sanitize (encV c1Good))).map restore_newlines = some c1Good :=
  ⟨by decide, c1_newline_roundtrip c1Good (by decide)⟩

/-- Claim C1 counterexample: `c1Bad` renders to `{"a":"\\⏎"}` — well-formed
JSON-like text whose string value holds a literal newline after a
backslash — yet the pipeline loses it: the lookbehind leaves the newline
raw, the strict first decode rejects it, and the unescape retry turns the
escaped backslash into a bare backslash before a newline, which also fails
to decode. -/
theorem c1_backslash_newline_counterexample :
    (decodeChain (sanitize (encV c1Bad))).map restore_newlines = none := by decide

/-- Claim C2 (corrected): over a string literal with minimally escaped
content whose source has no backslash directly before a newline, the
literal regex scan ends exactly at the unescaped closing quote (escaped
quotes do not end it), and the newline substitution replaces every raw
newline of the literal by the placeholder, copying all other characters
verbatim.  (For content with a backslash directly before a newline the
lookbehind skips that newline: see the counterexample.) -/
theorem c2_inside_string_replacement (s b : List Char) (h : noBSNL s = true) :
    scanLiteral (escML s ++ '\x22' :: b) = some (escML s, b) ∧
      replace_newlines ('\x22' :: (escML s ++ ['\x22']))
        = '\x22' :: (escML (protectStr s) ++ ['\x22']) :=
  ⟨scanLiteral_escML s b, replace_newlines_lit s h⟩

theorem c2_inside_string_replacement_witness :
    noBSNL ['a', '\n', '\x22', 'c'] = true ∧
      scanLiteral (escML ['a', '\n', '\x22', 'c'] ++ '\x22' :: ['z'])
        = some (escML ['a', '\n', '\x22', 'c'], ['z']) ∧
      replace_newlines ('\x22' :: (escML ['a', '\n', '\x22', 'c'] ++ ['\x22']))
        = '\x22' :: (escML (protectStr ['a', '\n', '\x22', 'c']) ++ ['\x22']) :=
  ⟨by decide, (c2_inside_string_replacement ['a', '\n', '\x22', 'c'] ['z'] (by decide)).1,
   (c2_inside_string_replacement ['a', '\n', '\x22', 'c'] ['z'] (by decide)).2⟩

/-- Claim C2 counterexample: inside the literal `"\\⏎"` the raw newline
directly follows a backslash (the escape of an escaped backslash), so the
negative lookbehind leaves it unreplaced — not every raw newline inside a
literal becomes the placeholder. -/
theorem c2_lookbehind_counterexample :
    replace_newlines ('\x22' :: '\\' :: '\\' :: '\n' :: ['\x22'])
      = '\x22' :: '\\' :: '\\' :: '\n' :: ['\x22'] := by decide

/-- Claim C3 (corrected): the control-character pass leaves protected
renderings of good trees untouched (their protected newlines are the
placeholder, and `0x0a` is outside the stripped ranges anyway), and it
replaces every character of the ranges `0x00–0x09`, `0x0b–0x1f` by one
space wherever it occurs — including inside quoted string literals, which
the first pass protects only against newlines: see the counterexample with
a tab inside a literal. -/
theorem c3_control_stripping (v : JVal) (a b : List Char) (c : Char)
    (hv : goodV v = true) (hc : isStrippedCtrl c = true) :
    stripControl (encV (protectVal v)) = encV (protectVal v) ∧
      stripControl (a ++ c :: b) = stripControl a ++ ' ' :: stripControl b ∧
      isStrippedCtrl '\n' = false := by
  refine ⟨stripControl_id _ (encV_printable _ (jsonOk_protectV v hv)), ?_, by decide⟩
  simp only [stripControl, List.map_append, List.map_cons, hc]
  simp

theorem c3_control_stripping_witness :
    goodV c3Tree = true ∧ isStrippedCtrl '\t' = true ∧
      (stripControl (encV (protectVal c3Tree)) = encV (protectVal c3Tree) ∧
        stripControl (['A'] ++ '\t' :: ['B']) = stripControl ['A'] ++ ' ' :: stripControl ['B'] ∧
        isStrippedCtrl '\n' = false) :=
  ⟨by decide, by decide, c3_control_stripping c3Tree ['A'] ['B'] '\t' (by decide) (by decide)⟩

/-- Claim C3 counterexample: a tab inside a quoted string literal is not
protected by the first pass and is replaced by a space in the second, so
the pass does affect string-internal content beyond newlines. -/
theorem c3_instring_tab_counterexample :
    sanitize ('\x22' :: 'x' :: '\t' :: 'y' :: ['\x22'])
      = '\x22' :: 'x' :: ' ' :: 'y' :: ['\x22'] := by decide

/-- Claim C4 (confirmed): the decode chain returns the direct decode when
it succeeds; exactly when it fails, the unescape transform is applied to
the whole text and decode retried once, whose outcome — success or
failure — is final, and a failing transform also ends the chain. -/
theorem c4_decode_chain (s : List Char) :
    (∀ v, json_loads s = some v → decodeChain s = some v) ∧
      (json_loads s = none → ∀ t, unicodeUnescape s = some t →
        decodeChain s = json_loads t) ∧
      (json_loads s = none → unicodeUnescape s = none → decodeChain s = none) := by
  refine ⟨?_, ?_, ?_⟩
  · intro v h
    simp only [decodeChain, h]
  · intro h t ht
    simp only [decodeChain, h, ht]
  · intro h ht
    simp only [decodeChain, h, ht]

theorem c4_decode_chain_witness :
    json_loads c4sIn = none ∧ unicodeUnescape c4sIn = some c4sOut ∧
      decodeChain c4sIn = json_loads c4sOut ∧
      json_loads c4sOut = some (JVal.obj (JFields.cons ['a'] (JVal.num 1) JFields.nil)) :=
  ⟨by decide, by decide, (c4_decode_chain c4sIn).2.1 (by decide) c4sOut (by decide), by decide⟩

/-- Claim C5 (confirmed): a text with no `\x7b` makes the locator fail
(`ValueError`, modelled as `none`), and a text consisting of a brace-free
prefix, a block that starts at its first `\x7b` and ends at its last
`\x7d`, and `\x7d`-free trailing prose locates exactly that block — for
two sibling objects the block run spans the first `\x7b` through the last
`\x7d`, prose excluded. -/
theorem c5_locator_boundaries (t pre mid post : List Char)
    (hno : t.all (fun c => !(c = '\x7b')) = true)
    (hpre : pre.all (fun c => !(c = '\x7b')) = true)
    (hpost : post.all (fun c => !(c = '\x7d')) = true) :
    locate t = none ∧
      locate (pre ++ ('\x7b' :: (mid ++ ['\x7d'])) ++ post)
        = some ('\x7b' :: (mid ++ ['\x7d'])) :=
  ⟨locate_no_brace t hno, locate_block pre mid post hpre hpost⟩

theorem c5_locator_boundaries_witness :
    locate c5NoObj = none ∧
      locate (c5Pre ++ ('\x7b' :: (c5Mid ++ ['\x7d'])) ++ c5Post)
        = some ('\x7b' :: (c5Mid ++ ['\x7d'])) :=
  ⟨(c5_locator_boundaries c5NoObj c5Pre c5Mid c5Post (by decide) (by decide) (by decide)).1,
   (c5_locator_boundaries c5NoObj c5Pre c5Mid c5Post (by decide) (by decide) (by decide)).2⟩

/-- Claim C6 (confirmed): a raw text without the `"content":` marker
passes through unchanged; with the marker it is parsed as a JSON document
and the `choices[0].message.content` string extracted, failing with
`MalformedEnvelope` when the document does not decode or the nested path
is missing — and the spec's example envelope unwraps to its inner content
string (see the witness). -/
theorem c6_unwrap_envelope (raw : List Char) :
    (containsSub contentMarker raw = false → unwrap raw = Except.ok raw) ∧
      (containsSub contentMarker raw = true → json_loads raw = none →
        unwrap raw = Except.error PErr.malformedEnvelope) ∧
      (∀ v, containsSub contentMarker raw = true → json_loads raw = some v →
        extractContent v = none → unwrap raw = Except.error PErr.malformedEnvelope) ∧
      (∀ v s, containsSub contentMarker raw = true → json_loads raw = some v →
        extractContent v = some s → unwrap raw = Except.ok s) := by
  refine ⟨?_, ?_, ?_, ?_⟩
  · intro h
    simp [unwrap, h]
  · intro h1 h2
    simp [unwrap, h1, h2]
  · intro v h1 h2 h3
    simp [unwrap, h1, h2, h3]
  · intro v s h1 h2 h3
    simp [unwrap, h1, h2, h3]

theorem c6_unwrap_envelope_witness :
    unwrap exEnvelope = Except.ok exInner ∧ unwrap c6Bare = Except.ok c6Bare :=
  ⟨(c6_unwrap_envelope exEnvelope).2.2.2 envVal exInner (by decide) (by decide) (by decide),
   (c6_unwrap_envelope c6Bare).1 (by decide)⟩

/-- Claim C8 (corrected): the parsing pipeline itself is fail-fast — an
unwrap error, a failed locate, and a failed decode each propagate as the
corresponding error — but the callers are not: the shell's response
handler turns any pipeline failure into `None` (a logged swallow rather
than a raise), and `perplexity_query.query_perplexity` substitutes the
literal default `"No result from Perplexity."` when the decoded response
lacks a `choices` key (see the counterexample), contradicting the
claim's `no stage silently substitutes default content`. -/
theorem c8_fail_fast (raw : List Char) :
    (∀ e, unwrap raw = Except.error e →
        parse_perplexity_response raw = Except.error e) ∧
      (∀ text, unwrap raw = Except.ok text → locate text = none →
        parse_perplexity_response raw = Except.error PErr.noObjectFound) ∧
      (∀ text cand, unwrap raw = Except.ok text → locate text = some cand →
        decodeChain (sanitize cand) = none →
        parse_perplexity_response raw = Except.error PErr.decodeFailed) ∧
      (∀ e, parse_perplexity_response raw = Except.error e →
        handle_response_shell raw = none) ∧
      (∀ kvs, json_loads raw = some (JVal.obj kvs) →
        lookupKey kvs choicesKey = none →
        pq_choices_extract raw = Except.ok (JVal.str pqNoResult)) := by
  refine ⟨?_, ?_, ?_, ?_, ?_⟩
  · intro e h
    simp [parse_perplexity_response, h]
  · intro text h1 h2
    simp [parse_perplexity_response, h1, h2]
  · intro text cand h1 h2 h3
    simp [parse_perplexity_response, h1, h2, h3]
  · intro e h
    simp [handle_response_shell, h]
  · intro kvs h1 h2
    simp [pq_choices_extract, h1, h2]

theorem c8_fail_fast_witness :
    parse_perplexity_response c8NoObj = Except.error PErr.noObjectFound ∧
      handle_response_shell c8NoObj = none := by
  have h1 := (c8_fail_fast c8NoObj).2.1 c8NoObj (by rfl) (by decide)
  exact ⟨h1, (c8_fail_fast c8NoObj).2.2.2.1 PErr.noObjectFound h1⟩

/-- Claim C8 counterexample: on the decodable body `\x7b\x7d` — no
`choices` key — `perplexity_query.query_perplexity` returns the literal
default string instead of failing, so a stage does substitute default
content in place of a recovered value. -/
theorem c8_default_content_counterexample :
    pq_choices_extract emptyObjBody = Except.ok (JVal.str pqNoResult) := by rfl

/-- Claim C9 (corrected): restoration is structure-preserving and undoes
protection on good trees (strings printable-or-newline, no backslash
before a newline, and — the non-collision proviso the original claim
asserts unconditionally — no occurrence of the placeholder token), and a
placeholder-free string is left exactly as decoded.  The token is not
collision-proof: a string value that legitimately contains
`\x7b\x7bNEWLINE\x7d\x7d` is rewritten into a newline — see the
counterexample. -/
theorem c9_restorer (v : JVal) (s : List Char)
    (hv : goodV v = true) (hs : containsSub placeholder s = false) :
    restore_newlines (protectVal v) = v ∧ restoreStr s = s :=
  ⟨restore_protectV v hv, replaceAll_no_occurrence placeholder ['\n'] s hs⟩

theorem c9_restorer_witness :
    goodV c9Good = true ∧ restore_newlines (protectVal c9Good) = c9Good ∧
      restoreStr c9Plain = c9Plain :=
  ⟨by decide, (c9_restorer c9Good c9Plain (by decide) (by decide)).1,
   (c9_restorer c9Good c9Plain (by decide) (by decide)).2⟩

/-- Claim C9 counterexample: the decoded string value `\x7b\x7bNEWLINE\x7d\x7d`
contains no newline, yet the restorer rewrites it into one — the
placeholder does collide with legitimate content, and a pre-existing
character sequence is turned into a newline. -/
theorem c9_placeholder_collision_counterexample :
    containsSub ['\n'] placeholder = false ∧
      restore_newlines (JVal.str placeholder) = JVal.str ['\n'] := by decide

/-- Claim C10 (confirmed): a raw text containing the substring
`"content":` is unconditionally treated as an envelope: when it is not a
decodable document the pipeline fails with the malformed-envelope error
instead of passing the text through, and likewise when it decodes but the
`choices[0].message.content` path is missing. -/
theorem c10_marker_forces_parse (raw : List Char)
    (h : containsSub contentMarker raw = true) :
    (json_loads raw = none →
        parse_perplexity_response raw = Except.error PErr.malformedEnvelope) ∧
      (∀ v, json_loads raw = some v → extractContent v = none →
        parse_perplexity_response raw = Except.error PErr.malformedEnvelope) := by
  constructor
  · intro h2
    simp [parse_perplexity_response, unwrap, h, h2]
  · intro v h2 h3
    simp [parse_perplexity_response, unwrap, h, h2, h3]

theorem c10_marker_forces_parse_witness :
    containsSub contentMarker c10Bare = true ∧
      parse_perplexity_response c10Bare = Except.error PErr.malformedEnvelope :=
  ⟨by decide, (c10_marker_forces_parse c10Bare (by decide)).1 (by decide)⟩
